import Mathlib

/-!
Verification development for the vivliostyle-core incremental styler
(break.ts, css-styler.ts, display.ts), shallowly embedded in Lean 4.

Break values are modelled as `Option String` (the TypeScript functions take
`string | null`, with `null` meaning the absent value 'auto').  Document
offsets are modelled as `Int` (JavaScript numbers that are integer-valued in
this code).  Mutating methods become state-passing functions.
-/

set_option maxHeartbeats 1000000

/-! ## break.ts -/

/-- Embedding of `forcedBreakValues` (break.ts): the keys of the literal
object mapping each forced break value to `true`. -/
def forcedBreakValues : List String :=
  ["page", "left", "right", "recto", "verso", "column", "region"]

/-- Embedding of `isForcedBreakValue` (break.ts).  A `null` (here `none`)
value is treated as 'auto' and is not forced. -/
def isForcedBreakValue (value : Option String) : Bool :=
  match value with
  | none => false
  | some s => forcedBreakValues.contains s

/-- Embedding of `spreadBreakValues` (break.ts). -/
def spreadBreakValues : List String :=
  ["left", "right", "recto", "verso"]

/-- Embedding of `isSpreadBreakValue` (break.ts). -/
def isSpreadBreakValue (value : Option String) : Bool :=
  match value with
  | none => false
  | some s => spreadBreakValues.contains s

/-- Embedding of `avoidBreakValues` (break.ts). -/
def avoidBreakValues : List String :=
  ["avoid", "avoid-page", "avoid-column", "avoid-region"]

/-- Embedding of `isAvoidBreakValue` (break.ts). -/
def isAvoidBreakValue (value : Option String) : Bool :=
  match value with
  | none => false
  | some s => avoidBreakValues.contains s

/-- A `string | null` value that is falsy in JavaScript: `null` or the empty
string.  The guards `!first` / `!second` in `resolveEffectiveBreakValue`
test exactly this. -/
def jsFalsyStr (v : Option String) : Bool :=
  match v with
  | none => true
  | some s => s = ""

/-- Embedding of `resolveEffectiveBreakValue` (break.ts, lines 113-153),
branch for branch. -/
def resolveEffectiveBreakValue (first second : Option String) : Option String :=
  if jsFalsyStr first then second
  else if jsFalsyStr second then first
  else if isSpreadBreakValue second then second
  else if isSpreadBreakValue first then first
  else
    let firstIsForcedBreakValue := isForcedBreakValue first
    let secondIsForcedBreakValue := isForcedBreakValue second
    if firstIsForcedBreakValue && secondIsForcedBreakValue then
      if second = some "column" then first
      else if second = some "region" then
        (if first = some "column" then second else first)
      else second
    else if secondIsForcedBreakValue then second
    else if firstIsForcedBreakValue then first
    else if isAvoidBreakValue second then second
    else if isAvoidBreakValue first then first
    else second

/-- The twelve-value domain named by claim C2, with `none` the null/absent
value. -/
def breakValueDomain : List (Option String) :=
  [none, some "avoid", some "avoid-page", some "avoid-column", some "avoid-region",
   some "page", some "left", some "right", some "recto", some "verso",
   some "column", some "region"]

/-- Transcription of the priority rules exactly as claim C2 states them,
to be compared with `resolveEffectiveBreakValue` from the source.  Rule 2
here reads, per the claim: "return second when second == region unless
first == column (then first)". -/
def c2ClaimRules (first second : Option String) : Option String :=
  if isSpreadBreakValue first || isSpreadBreakValue second then
    (if isSpreadBreakValue second then second else first)
  else if isForcedBreakValue first && isForcedBreakValue second then
    (if second = some "column" then first
     else if second = some "region" then
       (if first = some "column" then first else second)
     else second)
  else if isForcedBreakValue second then second
  else if isForcedBreakValue first then first
  else if isAvoidBreakValue first || isAvoidBreakValue second then
    (if isAvoidBreakValue second then second else first)
  else if second ≠ none then second
  else first

/-- Amended rule 2 of claim C2: when both sides are forced and
`second == region`, return `first` unless `first == column`, in which case
return `second`.  All other rules are unchanged from the claim. -/
def c2AmendedRules (first second : Option String) : Option String :=
  if isSpreadBreakValue first || isSpreadBreakValue second then
    (if isSpreadBreakValue second then second else first)
  else if isForcedBreakValue first && isForcedBreakValue second then
    (if second = some "column" then first
     else if second = some "region" then
       (if first = some "column" then second else first)
     else second)
  else if isForcedBreakValue second then second
  else if isForcedBreakValue first then first
  else if isAvoidBreakValue first || isAvoidBreakValue second then
    (if isAvoidBreakValue second then second else first)
  else if second ≠ none then second
  else first

/-- C2 counterexample: on the pair (column, region) the code returns
`region` (matching the spec's own test-property list), while the claim's
rule 2 as stated returns `first = column`.  So the claim as stated is
false on the code. -/
theorem c2_rules_counterexample :
    resolveEffectiveBreakValue (some "column") (some "region") = some "region" ∧
    c2ClaimRules (some "column") (some "region") = some "column" ∧
    (some "region" : Option String) ≠ some "column" := by
  refine ⟨by decide, by decide, by decide⟩

/-- C2 amended: over the whole twelve-value domain the code agrees with the
claim's rules once rule 2's region case is flipped to "return first unless
first == column (then second)"; the claim's two particular examples hold
as stated. -/
theorem c2_resolve_matches_amended_rules :
    (breakValueDomain.all fun first =>
      breakValueDomain.all fun second =>
        resolveEffectiveBreakValue first second == c2AmendedRules first second) = true ∧
    resolveEffectiveBreakValue (some "avoid") (some "left") = some "left" ∧
    resolveEffectiveBreakValue (some "left") (some "page") = some "left" := by
  refine ⟨by decide, by decide, by decide⟩

/-! ## css-styler.ts: SlipRange / SlipMap -/

/-- Embedding of `SlipRange` (css-styler.ts, lines 35-45). -/
structure SlipRange where
  endStuckFixed : Int
  endFixed : Int
  endSlipped : Int
deriving DecidableEq, Repr

/-- Embedding of `SlipMap` (css-styler.ts, lines 50-113).  The JS class
holds a growable array `map`; mutating methods become functions returning
the new map. -/
structure SlipMap where
  map : List SlipRange
deriving DecidableEq, Repr

/-- Embedding of `SlipMap.getMaxFixed`. -/
def SlipMap.getMaxFixed (m : SlipMap) : Int :=
  match m.map.getLast? with
  | none => 0
  | some range => range.endFixed

/-- Embedding of `SlipMap.getMaxSlipped`. -/
def SlipMap.getMaxSlipped (m : SlipMap) : Int :=
  match m.map.getLast? with
  | none => 0
  | some range => range.endSlipped

/-- Embedding of `SlipMap.addStuckRange` (css-styler.ts, lines 69-83).
In-place mutation of the last array element becomes replacement of the
last list element. -/
def SlipMap.addStuckRange (m : SlipMap) (endFixed : Int) : SlipMap :=
  match m.map.getLast? with
  | none => ⟨[⟨endFixed, endFixed, endFixed⟩]⟩
  | some range =>
    let endSlipped := range.endSlipped + endFixed - range.endFixed
    if range.endFixed = range.endStuckFixed then
      ⟨m.map.dropLast ++ [⟨endFixed, endFixed, endSlipped⟩]⟩
    else
      ⟨m.map ++ [⟨endFixed, endFixed, endSlipped⟩]⟩

/-- Embedding of `SlipMap.addSlippedRange` (css-styler.ts, lines 85-91). -/
def SlipMap.addSlippedRange (m : SlipMap) (endFixed : Int) : SlipMap :=
  match m.map.getLast? with
  | none => ⟨[⟨endFixed, 0, 0⟩]⟩
  | some range =>
    ⟨m.map.dropLast ++ [⟨range.endStuckFixed, endFixed, range.endSlipped⟩]⟩

/-- Modelled from the spec: `Base.binarySearch` (base.ts is not under src/);
spec section 4.2 describes the lookup as "binary-search the first range with
endFixed >= fixed", so the search is modelled as first-match lookup.  When no
range satisfies the predicate the JS code would index past the end of the
array and crash; that case is `none` here.  Embedding of
`SlipMap.slippedByFixed` (css-styler.ts, lines 93-100). -/
def SlipMap.slippedByFixed (m : SlipMap) (fixed : Int) : Option Int :=
  match m.map.find? (fun r => decide (fixed ≤ r.endFixed)) with
  | none => none
  | some range => some (range.endSlipped - max 0 (range.endStuckFixed - fixed))

/-- Embedding of `SlipMap.fixedBySlipped` (css-styler.ts, lines 105-112),
with `Base.binarySearch` modelled from the spec as in `slippedByFixed`. -/
def SlipMap.fixedBySlipped (m : SlipMap) (slipped : Int) : Option Int :=
  match m.map.find? (fun r => decide (slipped ≤ r.endSlipped)) with
  | none => none
  | some range => some (range.endStuckFixed - (range.endSlipped - slipped))

/-- A single call to one of the two SlipMap update methods. -/
inductive SlipOp where
  | stuck (endFixed : Int)
  | slipped (endFixed : Int)
deriving DecidableEq, Repr

/-- The numeric argument of a call. -/
def SlipOp.arg : SlipOp → Int
  | .stuck e => e
  | .slipped e => e

/-- Apply one call to a SlipMap. -/
def SlipMap.applyOp (m : SlipMap) : SlipOp → SlipMap
  | .stuck e => m.addStuckRange e
  | .slipped e => m.addSlippedRange e

/-- Run a call sequence on the empty SlipMap. -/
def runOps (ops : List SlipOp) : SlipMap :=
  ops.foldl SlipMap.applyOp ⟨[]⟩

/-- Boolean check that a call sequence's arguments form a chain
`lo ≤ a₀ ≤ a₁ ≤ ...`.  `argsLB 0 ops` says the arguments are non-negative
and non-decreasing; `argsLB a ops` continues a chain from `a`. -/
def argsLB (lo : Int) : List SlipOp → Bool
  | [] => true
  | op :: rest => decide (lo ≤ op.arg) && argsLB op.arg rest

/-- Boolean check that every `addSlippedRange` argument is strictly below
the argument of every later `addStuckRange` call. -/
def slippedLtLaterStuck : List SlipOp → Bool
  | [] => true
  | SlipOp.slipped g :: rest =>
      (rest.all fun o =>
        match o with
        | SlipOp.stuck f => decide (g < f)
        | SlipOp.slipped _ => true) && slippedLtLaterStuck rest
  | SlipOp.stuck _ :: rest => slippedLtLaterStuck rest

/-- C3 counterexample: starting from the reachable state built by
`addStuckRange 1; addSlippedRange 2`, the call `addStuckRange 3` opens a new
range `(3, 3, 2)`: its `endSlipped` is `2`, not `3`, so the claim's
"all three fields equal to endFixed" is false for the new range. -/
theorem c3_addStuckRange_counterexample :
    (runOps [SlipOp.stuck 1, SlipOp.slipped 2, SlipOp.stuck 3]).map =
      [⟨1, 2, 1⟩, ⟨3, 3, 2⟩] ∧
    ((2 : Int) ≠ 3) := by
  refine ⟨by decide, by decide⟩

/-- C3 amended: `addStuckRange endFixed` pushes `(endFixed, endFixed,
endFixed)` on an empty map; extends all three fields of a pure last range
(`endFixed = endStuckFixed`) by the common delta `endFixed - old endFixed`;
and otherwise opens a new range with `endStuckFixed = endFixed = argument`
and `endSlipped = old endSlipped + (argument - old endFixed)`. -/
theorem c3_addStuckRange_characterization (m : SlipMap) (e : Int) :
    (m.map = [] → (m.addStuckRange e).map = [⟨e, e, e⟩]) ∧
    (∀ l r, m.map = l ++ [r] → r.endFixed = r.endStuckFixed →
      (m.addStuckRange e).map =
        l ++ [⟨r.endStuckFixed + (e - r.endFixed), r.endFixed + (e - r.endFixed),
               r.endSlipped + (e - r.endFixed)⟩]) ∧
    (∀ l r, m.map = l ++ [r] → r.endFixed ≠ r.endStuckFixed →
      (m.addStuckRange e).map =
        m.map ++ [⟨e, e, r.endSlipped + (e - r.endFixed)⟩]) := by
  refine ⟨?_, ?_, ?_⟩
  · intro h
    simp [SlipMap.addStuckRange, h]
  · intro l r hm h
    simp only [SlipMap.addStuckRange, hm, List.getLast?_concat, h, if_true,
      List.dropLast_concat]
    congr 1
    simp only [List.cons.injEq, and_true, SlipRange.mk.injEq]
    refine ⟨by ring, by ring, by ring⟩
  · intro l r hm h
    simp only [SlipMap.addStuckRange, hm, List.getLast?_concat, h, if_false]
    congr 1
    simp only [List.cons.injEq, and_true, SlipRange.mk.injEq]
    refine ⟨trivial, trivial, by ring⟩

/-- C3 witness: the three branches of the characterization at concrete
inputs. -/
theorem c3_addStuckRange_characterization_witness :
    ((⟨[]⟩ : SlipMap).addStuckRange 2).map = [⟨2, 2, 2⟩] ∧
    ((⟨[⟨1, 1, 1⟩]⟩ : SlipMap).addStuckRange 3).map = [⟨3, 3, 3⟩] ∧
    ((⟨[⟨1, 2, 1⟩]⟩ : SlipMap).addStuckRange 3).map = [⟨1, 2, 1⟩, ⟨3, 3, 2⟩] := by
  refine ⟨(c3_addStuckRange_characterization ⟨[]⟩ 2).1 rfl, ?_, ?_⟩
  · have h := (c3_addStuckRange_characterization ⟨[⟨1, 1, 1⟩]⟩ 3).2.1 [] ⟨1, 1, 1⟩ rfl rfl
    simpa using h
  · have h := (c3_addStuckRange_characterization ⟨[⟨1, 2, 1⟩]⟩ 3).2.2 [] ⟨1, 2, 1⟩ rfl
      (by decide)
    simpa using h

/-- C10: if `addSlippedRange n` is the first call on an empty SlipMap, the
argument lands in the `endStuckFixed` slot of the `SlipRange` constructor:
the single resulting range is `(n, 0, 0)`, `getMaxFixed` is `0`, and for
`n > 0` the range has `endFixed < endStuckFixed`, i.e. the well-ordered
shape fails. -/
theorem c10_first_slipped_degenerate (n : Int) (hn : 0 < n) :
    (runOps [SlipOp.slipped n]).map = [⟨n, 0, 0⟩] ∧
    (runOps [SlipOp.slipped n]).getMaxFixed = 0 ∧
    ∀ r ∈ (runOps [SlipOp.slipped n]).map, r.endFixed < r.endStuckFixed := by
  refine ⟨rfl, rfl, ?_⟩
  intro r hr
  simp only [runOps, List.foldl_cons, List.foldl_nil, SlipMap.applyOp,
    SlipMap.addSlippedRange, List.getLast?_nil, List.mem_singleton] at hr
  subst hr
  exact hn

/-- C10 witness at `n = 1`. -/
theorem c10_first_slipped_degenerate_witness :
    (0 : Int) < 1 ∧
    ((runOps [SlipOp.slipped 1]).map = [⟨1, 0, 0⟩] ∧
     (runOps [SlipOp.slipped 1]).getMaxFixed = 0 ∧
     ∀ r ∈ (runOps [SlipOp.slipped 1]).map, r.endFixed < r.endStuckFixed) :=
  ⟨by decide, c10_first_slipped_degenerate 1 (by decide)⟩

/-- C5 counterexample: the single call `addSlippedRange 1` (trivially a
non-decreasing sequence) reaches the state `[(1, 0, 0)]`, whose only range
violates `endStuckFixed ≤ endFixed`. -/
theorem c5_invariant_counterexample :
    argsLB 0 [SlipOp.slipped 1] = true ∧
    (runOps [SlipOp.slipped 1]).map = [⟨1, 0, 0⟩] ∧
    ¬ ((1 : Int) ≤ 0) := by
  refine ⟨by decide, by decide, by decide⟩

/-- C1 counterexample: in the non-decreasing call sequence
`addStuckRange 1; addSlippedRange 2; addStuckRange 2` the offset `2` is
registered via `addStuckRange`, yet
`fixedBySlipped (slippedByFixed 2) = 1 ≠ 2`: the binary search for
`endFixed >= 2` stops at the earlier range `(1, 2, 1)` left by the
interleaved `addSlippedRange 2`. -/
theorem c1_roundtrip_counterexample :
    argsLB 0 [SlipOp.stuck 1, SlipOp.slipped 2, SlipOp.stuck 2] = true ∧
    (runOps [SlipOp.stuck 1, SlipOp.slipped 2, SlipOp.stuck 2]).slippedByFixed 2 =
      some 1 ∧
    (runOps [SlipOp.stuck 1, SlipOp.slipped 2, SlipOp.stuck 2]).fixedBySlipped 1 =
      some 1 ∧
    ((1 : Int) ≠ 2) := by
  refine ⟨by decide, by decide, by decide, by decide⟩

/-! ### Reachability invariants for SlipMap states

The lemmas below describe the states a SlipMap can reach when the update
methods are called with non-negative, non-decreasing arguments, as the
Styler does (its arguments are the strictly advancing document offsets). -/

/-- Rewriting lemma: `addStuckRange` on a map whose last range is pure
(`endFixed = endStuckFixed`) replaces that range. -/
theorem addStuckRange_concat_pure (l : List SlipRange) (r : SlipRange) (e : Int)
    (h : r.endFixed = r.endStuckFixed) :
    (SlipMap.addStuckRange ⟨l ++ [r]⟩ e).map =
      l ++ [⟨e, e, r.endSlipped + e - r.endFixed⟩] := by
  simp [SlipMap.addStuckRange, List.getLast?_concat, h, List.dropLast_concat]

/-- Rewriting lemma: `addStuckRange` on a map whose last range is impure
appends a new range. -/
theorem addStuckRange_concat_impure (l : List SlipRange) (r : SlipRange) (e : Int)
    (h : r.endFixed ≠ r.endStuckFixed) :
    (SlipMap.addStuckRange ⟨l ++ [r]⟩ e).map =
      l ++ [r, ⟨e, e, r.endSlipped + e - r.endFixed⟩] := by
  simp [SlipMap.addStuckRange, List.getLast?_concat, h]

/-- Rewriting lemma: `addSlippedRange` on a non-empty map only advances the
last range's `endFixed`. -/
theorem addSlippedRange_concat (l : List SlipRange) (r : SlipRange) (e : Int) :
    (SlipMap.addSlippedRange ⟨l ++ [r]⟩ e).map =
      l ++ [⟨r.endStuckFixed, e, r.endSlipped⟩] := by
  simp [SlipMap.addSlippedRange, List.getLast?_concat, List.dropLast_concat]

/-- The last element of a list is a member. -/
theorem mem_of_getLast?_eq {α : Type} {l : List α} {x : α}
    (h : l.getLast? = some x) : x ∈ l := by
  rcases List.eq_nil_or_concat l with rfl | ⟨t, a, rfl⟩
  · simp at h
  · rw [List.concat_eq_append] at *
    rw [List.getLast?_concat] at h
    cases h
    simp

/-- Adjacency relation between consecutive ranges of a reachable SlipMap:
`endFixed` and `endSlipped` are non-decreasing, and the new range's
slipped/stuck difference records the previous range's slipped/fixed
difference (the effect of the push in `addStuckRange`). -/
def SlipRange.link (p r : SlipRange) : Prop :=
  p.endFixed ≤ r.endFixed ∧ p.endSlipped ≤ r.endSlipped ∧
  r.endSlipped - r.endStuckFixed = p.endSlipped - p.endFixed

/-- Invariant of SlipMap states reachable by calls with non-negative
non-decreasing arguments, all of them at most `hi`. -/
def GoodMap (m : SlipMap) (hi : Int) : Prop :=
  m.map ≠ [] ∧ List.Chain' SlipRange.link m.map ∧ 0 ≤ hi ∧
  ∀ x, m.map.getLast? = some x → x.endFixed ≤ hi

/-- Along a `link` chain, any projection that `link` forces upward is
maximal at the last element. -/
theorem chain_le_getLast (f : SlipRange → Int)
    (hmono : ∀ p r, SlipRange.link p r → f p ≤ f r) :
    ∀ (rs : List SlipRange), List.Chain' SlipRange.link rs →
      ∀ x, rs.getLast? = some x → ∀ q ∈ rs, f q ≤ f x := by
  intro rs
  induction rs with
  | nil => intro _ x hx; simp at hx
  | cons a t ih =>
    intro hc x hx q hq
    cases t with
    | nil =>
      simp at hx hq
      subst hx; subst hq; exact le_refl _
    | cons b t' =>
      rw [List.chain'_cons] at hc
      have hx' : (b :: t').getLast? = some x := by
        simpa [List.getLast?_cons_cons] using hx
      rcases List.mem_cons.mp hq with rfl | hq'
      · calc f q ≤ f b := hmono _ _ hc.1
          _ ≤ f x := ih hc.2 x hx' b (List.mem_cons_self _ _)
      · exact ih hc.2 x hx' q hq'


/-- Build a `GoodMap` fact from facts about a known value of the map list. -/
theorem goodMap_mk (m : SlipMap) (rs : List SlipRange) (hi : Int)
    (hmap : m.map = rs) (h1 : rs ≠ []) (h2 : List.Chain' SlipRange.link rs)
    (h3 : 0 ≤ hi) (h4 : ∀ x, rs.getLast? = some x → x.endFixed ≤ hi) :
    GoodMap m hi := by
  rw [GoodMap, hmap]
  exact ⟨h1, h2, h3, h4⟩

/-- A non-empty SlipMap splits off its last range. -/
theorem map_eq_concat_of_ne (m : SlipMap) (h : m.map ≠ []) :
    ∃ l r, m.map = l ++ [r] := by
  rcases List.eq_nil_or_concat m.map with h0 | ⟨l, r, hcat⟩
  · exact absurd h0 h
  · exact ⟨l, r, by rw [hcat, List.concat_eq_append]⟩

/-- GoodMap is established by the first call, whatever it is, when its
argument is non-negative. -/
theorem goodMap_init (op : SlipOp) (h : 0 ≤ op.arg) :
    GoodMap (SlipMap.applyOp ⟨[]⟩ op) op.arg := by
  cases op with
  | stuck g =>
    refine goodMap_mk _ [⟨g, g, g⟩] g rfl (by simp) (by simp) h ?_
    intro x hx
    simp only [List.getLast?_singleton, Option.some.injEq] at hx
    rw [← hx]
  | slipped g =>
    refine goodMap_mk _ [⟨g, 0, 0⟩] g rfl (by simp) (by simp) h ?_
    intro x hx
    simp only [List.getLast?_singleton, Option.some.injEq] at hx
    rw [← hx]
    exact h

/-- GoodMap is preserved by `addSlippedRange` with a larger argument. -/
theorem goodMap_addSlipped (m : SlipMap) (hi g : Int)
    (hm : GoodMap m hi) (hg : hi ≤ g) :
    GoodMap (m.addSlippedRange g) g := by
  obtain ⟨hne, hchain, hnn, hlast⟩ := hm
  obtain ⟨l, r, hcat⟩ := map_eq_concat_of_ne m hne
  have hrb : r.endFixed ≤ hi := hlast r (by rw [hcat]; exact List.getLast?_concat l)
  have hm' : m = ⟨l ++ [r]⟩ := by cases m; simp_all
  rw [hcat, List.chain'_append] at hchain
  refine goodMap_mk _ (l ++ [⟨r.endStuckFixed, g, r.endSlipped⟩]) g
    (by rw [hm', addSlippedRange_concat]) (by simp) ?_ (by omega) ?_
  · rw [List.chain'_append]
    refine ⟨hchain.1, List.chain'_singleton _, ?_⟩
    intro x hx y hy
    simp only [List.head?_cons, Option.mem_def, Option.some.injEq] at hy
    have hlk := hchain.2.2 x hx r (by simp)
    obtain ⟨ha, hb, hc⟩ := hlk
    subst hy
    refine ⟨by simp; omega, by simpa using hb, by simp; omega⟩
  · intro x hx
    rw [List.getLast?_concat] at hx
    cases hx
    simp

/-- GoodMap is preserved by `addStuckRange` with a larger argument. -/
theorem goodMap_addStuck (m : SlipMap) (hi g : Int)
    (hm : GoodMap m hi) (hg : hi ≤ g) :
    GoodMap (m.addStuckRange g) g := by
  obtain ⟨hne, hchain, hnn, hlast⟩ := hm
  obtain ⟨l, r, hcat⟩ := map_eq_concat_of_ne m hne
  have hrb : r.endFixed ≤ hi := hlast r (by rw [hcat]; exact List.getLast?_concat l)
  have hm' : m = ⟨l ++ [r]⟩ := by cases m; simp_all
  rw [hcat, List.chain'_append] at hchain
  by_cases hpure : r.endFixed = r.endStuckFixed
  · refine goodMap_mk _ (l ++ [⟨g, g, r.endSlipped + g - r.endFixed⟩]) g
      (by rw [hm', addStuckRange_concat_pure l r g hpure]) (by simp) ?_ (by omega) ?_
    · rw [List.chain'_append]
      refine ⟨hchain.1, List.chain'_singleton _, ?_⟩
      intro x hx y hy
      simp only [List.head?_cons, Option.mem_def, Option.some.injEq] at hy
      have hlk := hchain.2.2 x hx r (by simp)
      obtain ⟨ha, hb, hc⟩ := hlk
      subst hy
      refine ⟨by simp; omega, by simp; omega, by simp; omega⟩
    · intro x hx
      rw [List.getLast?_concat] at hx
      cases hx
      simp
  · refine goodMap_mk _ ((l ++ [r]) ++ [⟨g, g, r.endSlipped + g - r.endFixed⟩]) g
      (by rw [hm', addStuckRange_concat_impure l r g hpure]; simp) (by simp) ?_
      (by omega) ?_
    · rw [List.chain'_append]
      refine ⟨by rw [List.chain'_append]; exact hchain, List.chain'_singleton _, ?_⟩
      intro x hx y hy
      rw [List.getLast?_concat] at hx
      simp only [List.head?_cons, Option.mem_def, Option.some.injEq] at hy
      cases hx
      subst hy
      refine ⟨by simp; omega, by simp; omega, by simp; omega⟩
    · intro x hx
      rw [List.getLast?_concat] at hx
      cases hx
      simp

/-- GoodMap is preserved by any single call with a larger argument. -/
theorem goodMap_applyOp (m : SlipMap) (hi : Int) (op : SlipOp)
    (hm : GoodMap m hi) (h : hi ≤ op.arg) :
    GoodMap (m.applyOp op) op.arg := by
  cases op with
  | stuck g => exact goodMap_addStuck m hi g hm h
  | slipped g => exact goodMap_addSlipped m hi g hm h

/-- The last argument of a call sequence, with a default for the empty
sequence. -/
def lastArgD (hi : Int) : List SlipOp → Int
  | [] => hi
  | op :: rest => lastArgD op.arg rest

/-- An `argsLB` chain keeps its lower bound below the last argument. -/
theorem le_lastArgD (lo : Int) (ops : List SlipOp) (h : argsLB lo ops = true) :
    lo ≤ lastArgD lo ops := by
  induction ops generalizing lo with
  | nil => exact le_refl _
  | cons op rest ih =>
    rw [argsLB, Bool.and_eq_true, decide_eq_true_eq] at h
    calc lo ≤ op.arg := h.1
      _ ≤ lastArgD op.arg rest := ih op.arg h.2

/-- GoodMap is preserved along a whole chain of calls. -/
theorem goodMap_fold (ops : List SlipOp) :
    ∀ (m : SlipMap) (hi : Int), GoodMap m hi → argsLB hi ops = true →
      GoodMap (ops.foldl SlipMap.applyOp m) (lastArgD hi ops) := by
  induction ops with
  | nil => intro m hi hm _; exact hm
  | cons op rest ih =>
    intro m hi hm hargs
    rw [argsLB, Bool.and_eq_true, decide_eq_true_eq] at hargs
    rw [List.foldl_cons, lastArgD]
    exact ih _ op.arg (goodMap_applyOp m hi op hm hargs.1) hargs.2

/-- The value `slippedByFixed` reads off the range found by the search. -/
def slipVal (r : SlipRange) (f : Int) : Int :=
  r.endSlipped - max 0 (r.endStuckFixed - f)

/-- Unfolding of `slippedByFixed` through the first-match search. -/
theorem slippedByFixed_map_find (m : SlipMap) (f : Int) :
    m.slippedByFixed f =
      (m.map.find? (fun r => decide (f ≤ r.endFixed))).map (fun r => slipVal r f) := by
  cases h : m.map.find? (fun r => decide (f ≤ r.endFixed)) with
  | none => simp [SlipMap.slippedByFixed, h]
  | some r => simp [SlipMap.slippedByFixed, h, slipVal]

/-- Unfolding of `fixedBySlipped` through the first-match search. -/
theorem fixedBySlipped_map_find (m : SlipMap) (s : Int) :
    m.fixedBySlipped s =
      (m.map.find? (fun r => decide (s ≤ r.endSlipped))).map
        (fun r => r.endStuckFixed - (r.endSlipped - s)) := by
  cases h : m.map.find? (fun r => decide (s ≤ r.endSlipped)) with
  | none => simp [SlipMap.fixedBySlipped, h]
  | some r => simp [SlipMap.fixedBySlipped, h]

/-- Within a single range the slipped value is monotone in the query. -/
theorem slipVal_mono (r : SlipRange) {f1 f2 : Int} (h : f1 ≤ f2) :
    slipVal r f1 ≤ slipVal r f2 := by
  unfold slipVal
  have hm : max 0 (r.endStuckFixed - f2) ≤ max 0 (r.endStuckFixed - f1) :=
    max_le_max (le_refl 0) (by omega)
  omega

/-- The slipped value never exceeds the range's `endSlipped`. -/
theorem slipVal_le (r : SlipRange) (f : Int) : slipVal r f ≤ r.endSlipped := by
  unfold slipVal
  have hm := le_max_left (0 : Int) (r.endStuckFixed - f)
  omega

/-- If the query has passed a range `r`, any value found further right is
at least `r.endSlipped`. -/
theorem find_slipVal_lower (t : List SlipRange) :
    ∀ (r : SlipRange) (f s : Int),
      List.Chain' SlipRange.link (r :: t) → r.endFixed < f →
      (t.find? (fun q => decide (f ≤ q.endFixed))).map (fun q => slipVal q f) = some s →
      r.endSlipped ≤ s := by
  induction t with
  | nil => intro r f s _ _ hfind; simp at hfind
  | cons q t' ih =>
    intro r f s hchain hrf hfind
    rw [List.chain'_cons] at hchain
    obtain ⟨⟨hab, hcc, hid⟩, hchain'⟩ := hchain
    by_cases hq : f ≤ q.endFixed
    · rw [List.find?_cons_of_pos _ (by simpa using hq)] at hfind
      simp only [Option.map_some', Option.some.injEq] at hfind
      rcases le_total (q.endStuckFixed - f) 0 with h' | h'
      · rw [slipVal, max_eq_left h'] at hfind
        omega
      · rw [slipVal, max_eq_right h'] at hfind
        omega
    · rw [List.find?_cons_of_neg _ (by simpa using hq)] at hfind
      have := ih q f s hchain' (by omega) hfind
      omega

/-- Monotonicity of the found slipped value along a linked range list. -/
theorem find_slipVal_mono (rs : List SlipRange) :
    ∀ (f1 f2 s1 s2 : Int),
      List.Chain' SlipRange.link rs → f1 ≤ f2 →
      (rs.find? (fun q => decide (f1 ≤ q.endFixed))).map (fun q => slipVal q f1) = some s1 →
      (rs.find? (fun q => decide (f2 ≤ q.endFixed))).map (fun q => slipVal q f2) = some s2 →
      s1 ≤ s2 := by
  induction rs with
  | nil => intro f1 f2 s1 s2 _ _ h1 _; simp at h1
  | cons r t ih =>
    intro f1 f2 s1 s2 hchain h12 h1 h2
    by_cases hf1 : f1 ≤ r.endFixed
    · rw [List.find?_cons_of_pos _ (by simpa using hf1)] at h1
      simp only [Option.map_some', Option.some.injEq] at h1
      by_cases hf2 : f2 ≤ r.endFixed
      · rw [List.find?_cons_of_pos _ (by simpa using hf2)] at h2
        simp only [Option.map_some', Option.some.injEq] at h2
        rw [← h1, ← h2]
        exact slipVal_mono r h12
      · rw [List.find?_cons_of_neg _ (by simpa using hf2)] at h2
        have hlow := find_slipVal_lower t r f2 s2 hchain (by omega) h2
        have hle := slipVal_le r f1
        omega
    · have hf2 : ¬ f2 ≤ r.endFixed := by omega
      rw [List.find?_cons_of_neg _ (by simpa using hf1)] at h1
      rw [List.find?_cons_of_neg _ (by simpa using hf2)] at h2
      exact ih f1 f2 s1 s2 hchain.tail h12 h1 h2

/-- The search in `slippedByFixed` succeeds for queries at most the last
range's `endFixed`. -/
theorem find_fixed_isSome (m : SlipMap) (x : SlipRange)
    (hx : m.map.getLast? = some x) (f : Int) (hf : f ≤ x.endFixed) :
    ∃ r, m.map.find? (fun q => decide (f ≤ q.endFixed)) = some r := by
  have hmem : x ∈ m.map := mem_of_getLast?_eq hx
  have hsome : (m.map.find? (fun q => decide (f ≤ q.endFixed))).isSome = true :=
    List.find?_isSome.mpr ⟨x, hmem, by simpa using hf⟩
  exact Option.isSome_iff_exists.mp hsome

/-- C7: for every non-empty call sequence with non-negative, non-decreasing
arguments and all queries `f1 ≤ f2 ≤ getMaxFixed()`, the mapping
`slippedByFixed` is defined on both queries and monotone. -/
theorem c7_slippedByFixed_monotone (ops : List SlipOp) (h0 : ops ≠ [])
    (hargs : argsLB 0 ops = true) (f1 f2 : Int) (h12 : f1 ≤ f2)
    (hmax : f2 ≤ (runOps ops).getMaxFixed) :
    ∃ s1 s2, (runOps ops).slippedByFixed f1 = some s1 ∧
      (runOps ops).slippedByFixed f2 = some s2 ∧ s1 ≤ s2 := by
  obtain ⟨op, rest, rfl⟩ : ∃ op rest, ops = op :: rest := by
    cases ops with
    | nil => exact absurd rfl h0
    | cons op rest => exact ⟨op, rest, rfl⟩
  rw [argsLB, Bool.and_eq_true, decide_eq_true_eq] at hargs
  have hrun : GoodMap (runOps (op :: rest)) (lastArgD op.arg rest) := by
    rw [runOps, List.foldl_cons]
    exact goodMap_fold rest _ op.arg (goodMap_init op hargs.1) hargs.2
  obtain ⟨hne, hchain, hnn, hlast⟩ := hrun
  obtain ⟨l, r, hcat⟩ := map_eq_concat_of_ne _ hne
  have hlastx : (runOps (op :: rest)).map.getLast? = some r := by
    rw [hcat]; exact List.getLast?_concat l
  have hgmf : (runOps (op :: rest)).getMaxFixed = r.endFixed := by
    simp [SlipMap.getMaxFixed, hlastx]
  rw [hgmf] at hmax
  obtain ⟨r2, hr2⟩ := find_fixed_isSome _ r hlastx f2 hmax
  obtain ⟨r1, hr1⟩ := find_fixed_isSome _ r hlastx f1 (by omega)
  refine ⟨slipVal r1 f1, slipVal r2 f2, ?_, ?_, ?_⟩
  · rw [slippedByFixed_map_find, hr1, Option.map_some']
  · rw [slippedByFixed_map_find, hr2, Option.map_some']
  · exact find_slipVal_mono _ f1 f2 _ _ hchain h12
      (by rw [hr1, Option.map_some']) (by rw [hr2, Option.map_some'])

/-- C7 witness: a concrete mixed call sequence with a slipped gap. -/
theorem c7_slippedByFixed_monotone_witness :
    ([SlipOp.stuck 1, SlipOp.slipped 3, SlipOp.stuck 5] ≠ ([] : List SlipOp)) ∧
    argsLB 0 [SlipOp.stuck 1, SlipOp.slipped 3, SlipOp.stuck 5] = true ∧
    ((1 : Int) ≤ 4) ∧
    ((4 : Int) ≤ (runOps [SlipOp.stuck 1, SlipOp.slipped 3, SlipOp.stuck 5]).getMaxFixed) ∧
    ∃ s1 s2,
      (runOps [SlipOp.stuck 1, SlipOp.slipped 3, SlipOp.stuck 5]).slippedByFixed 1 =
        some s1 ∧
      (runOps [SlipOp.stuck 1, SlipOp.slipped 3, SlipOp.stuck 5]).slippedByFixed 4 =
        some s2 ∧ s1 ≤ s2 :=
  ⟨by decide, by decide, by decide, by decide,
    c7_slippedByFixed_monotone _ (by decide) (by decide) 1 4 (by decide) (by decide)⟩

/-! ### Round trip of offsets registered by addStuckRange (claim C1) -/

/-- find? returns the head of the suffix when the whole prefix fails. -/
theorem find?_append_first {p : SlipRange → Bool} :
    ∀ (l₁ : List SlipRange) (r : SlipRange) (l₂ : List SlipRange),
      (∀ q ∈ l₁, p q = false) → p r = true →
      (l₁ ++ r :: l₂).find? p = some r := by
  intro l₁
  induction l₁ with
  | nil => intro r l₂ _ hr; simpa using List.find?_cons_of_pos l₂ hr
  | cons a t ih =>
    intro r l₂ hfail hr
    rw [List.cons_append,
      List.find?_cons_of_neg _ (by rw [hfail a (by simp)]; simp)]
    exact ih r l₂ (fun q hq => hfail q (by simp [hq])) hr

/-- Precondition that the amended claim C1 maintains while processing the
calls before the distinguished `addStuckRange F`: every range other than the
last one ended (its `endFixed`) strictly below `F`, and so did the last one
if it is impure. -/
def PreC1 (m : SlipMap) (F : Int) : Prop :=
  (∀ q ∈ m.map.dropLast, q.endFixed < F) ∧
  (∀ x, m.map.getLast? = some x → x.endStuckFixed ≠ x.endFixed → x.endFixed < F)

/-- A registered primary offset `f` with its slipped image `s`: some range
covers `f` on its stuck segment, and every earlier range ends strictly
below `f` (fixed) and `s` (slipped). -/
def Reg (m : SlipMap) (f s : Int) : Prop :=
  ∃ l₁ r l₂, m.map = l₁ ++ r :: l₂ ∧ f ≤ r.endStuckFixed ∧
    r.endStuckFixed ≤ r.endFixed ∧ s = r.endSlipped - (r.endStuckFixed - f) ∧
    (∀ q ∈ l₁, q.endFixed < f) ∧ (∀ q ∈ l₁, q.endSlipped < s)

/-- PreC1 is preserved by `addSlippedRange` with argument below `F`. -/
theorem preC1_addSlipped (m : SlipMap) (F g : Int) (hne : m.map ≠ [])
    (hp : PreC1 m F) (hgF : g < F) : PreC1 (m.addSlippedRange g) F := by
  obtain ⟨l, r, hcat⟩ := map_eq_concat_of_ne m hne
  have hm' : m = ⟨l ++ [r]⟩ := by cases m; simp_all
  constructor
  · intro q hq
    rw [hm', addSlippedRange_concat, List.dropLast_concat] at hq
    exact hp.1 q (by rw [hcat, List.dropLast_concat]; exact hq)
  · intro x hx _
    rw [hm', addSlippedRange_concat, List.getLast?_concat] at hx
    cases hx
    simpa using hgF

/-- PreC1 is preserved by `addStuckRange` with any argument. -/
theorem preC1_addStuck (m : SlipMap) (F g : Int) (hne : m.map ≠ [])
    (hp : PreC1 m F) : PreC1 (m.addStuckRange g) F := by
  obtain ⟨l, r, hcat⟩ := map_eq_concat_of_ne m hne
  have hm' : m = ⟨l ++ [r]⟩ := by cases m; simp_all
  by_cases hpure : r.endFixed = r.endStuckFixed
  · constructor
    · intro q hq
      rw [hm', addStuckRange_concat_pure l r g hpure, List.dropLast_concat] at hq
      exact hp.1 q (by rw [hcat, List.dropLast_concat]; exact hq)
    · intro x hx himp
      rw [hm', addStuckRange_concat_pure l r g hpure, List.getLast?_concat] at hx
      cases hx
      simp at himp
  · constructor
    · intro q hq
      rw [hm', addStuckRange_concat_impure l r g hpure] at hq
      have hsplit : l ++ [r, SlipRange.mk g g (r.endSlipped + g - r.endFixed)] =
          (l ++ [r]) ++ [SlipRange.mk g g (r.endSlipped + g - r.endFixed)] := by
        simp
      rw [hsplit, List.dropLast_concat] at hq
      rcases List.mem_append.mp hq with hql | hqr
      · exact hp.1 q (by rw [hcat, List.dropLast_concat]; exact hql)
      · have : q = r := by simpa using hqr
        subst this
        exact hp.2 q (by rw [hcat]; exact List.getLast?_concat l)
          (fun hh => hpure hh.symm)
    · intro x hx himp
      rw [hm', addStuckRange_concat_impure l r g hpure] at hx
      have hsplit : l ++ [r, SlipRange.mk g g (r.endSlipped + g - r.endFixed)] =
          (l ++ [r]) ++ [SlipRange.mk g g (r.endSlipped + g - r.endFixed)] := by
        simp
      rw [hsplit, List.getLast?_concat] at hx
      cases hx
      simp at himp

/-- PreC1 is established by the first call when the amendment bounds its
argument. -/
theorem preC1_init (op : SlipOp) (F : Int) (h0 : 0 ≤ op.arg)
    (h : ∀ g, op = SlipOp.slipped g → g < F) :
    PreC1 (SlipMap.applyOp ⟨[]⟩ op) F := by
  cases op with
  | stuck g =>
    constructor
    · intro q hq
      simp [SlipMap.applyOp, SlipMap.addStuckRange] at hq
    · intro x hx himp
      simp only [SlipMap.applyOp, SlipMap.addStuckRange, List.getLast?_nil,
        List.getLast?_singleton, Option.some.injEq] at hx
      rw [← hx] at himp
      simp at himp
  | slipped g =>
    have hgF := h g rfl
    constructor
    · intro q hq
      simp [SlipMap.applyOp, SlipMap.addSlippedRange] at hq
    · intro x hx himp
      simp only [SlipMap.applyOp, SlipMap.addSlippedRange, List.getLast?_nil,
        List.getLast?_singleton, Option.some.injEq] at hx
      rw [← hx] at himp
      simp only [SlipOp.arg] at h0 hgF
      rw [← hx]
      simp at himp ⊢
      omega

/-- GoodMap and PreC1 both flow through the calls before the distinguished
`addStuckRange`. -/
theorem preC1_fold (ops : List SlipOp) :
    ∀ (m : SlipMap) (hi F : Int), GoodMap m hi → PreC1 m F →
      argsLB hi ops = true → (∀ g, SlipOp.slipped g ∈ ops → g < F) →
      GoodMap (ops.foldl SlipMap.applyOp m) (lastArgD hi ops) ∧
      PreC1 (ops.foldl SlipMap.applyOp m) F := by
  induction ops with
  | nil => intro m hi F hg hp _ _; exact ⟨hg, hp⟩
  | cons op rest ih =>
    intro m hi F hg hp hargs hslip
    rw [argsLB, Bool.and_eq_true, decide_eq_true_eq] at hargs
    rw [List.foldl_cons, lastArgD]
    have hne : m.map ≠ [] := hg.1
    have hg' := goodMap_applyOp m hi op hg hargs.1
    have hp' : PreC1 (m.applyOp op) F := by
      cases op with
      | stuck g => exact preC1_addStuck m F g hne hp
      | slipped g => exact preC1_addSlipped m F g hne hp (hslip g (by simp))
    exact ih _ op.arg F hg' hp' hargs.2 (fun g hgmem => hslip g (by simp [hgmem]))

/-- The distinguished `addStuckRange F` registers `F`: the new last range
covers `F` at the top of its stuck segment and every earlier range ends
strictly below it, in both coordinates. -/
theorem reg_establish (m : SlipMap) (hi F : Int) (hg : GoodMap m hi)
    (hp : PreC1 m F) (_hF : hi ≤ F) :
    ∃ s, Reg (m.addStuckRange F) F s := by
  obtain ⟨hne, hchain, hnn, hlast⟩ := hg
  obtain ⟨l, r, hcat⟩ := map_eq_concat_of_ne m hne
  have hm' : m = ⟨l ++ [r]⟩ := by cases m; simp_all
  have hrb : r.endFixed ≤ hi := hlast r (by rw [hcat]; exact List.getLast?_concat l)
  have hdrop : ∀ q ∈ l, q.endFixed < F := by
    intro q hq
    exact hp.1 q (by rw [hcat, List.dropLast_concat]; exact hq)
  rw [hcat, List.chain'_append] at hchain
  by_cases hpure : r.endFixed = r.endStuckFixed
  · refine ⟨r.endSlipped + F - r.endFixed, ⟨l, ⟨F, F, r.endSlipped + F - r.endFixed⟩, [],
      ?_, le_refl F, le_refl F, by simp, hdrop, ?_⟩⟩
    · rw [hm', addStuckRange_concat_pure l r F hpure]
    · intro q hq
      rcases List.eq_nil_or_concat l with rfl | ⟨l', x, hl⟩
      · simp at hq
      · rw [List.concat_eq_append] at hl
        have hxlast : l.getLast? = some x := by rw [hl]; exact List.getLast?_concat l'
        have hlink : SlipRange.link x r := by
          have := hchain.2.2 x (by rw [hxlast]; rfl) r (by simp)
          exact this
        obtain ⟨hab, hcc, hid⟩ := hlink
        have hqx : q.endSlipped ≤ x.endSlipped :=
          chain_le_getLast (fun t => t.endSlipped) (fun p t hlk => hlk.2.1) l
            hchain.1 x hxlast q hq
        have hxb : x.endFixed < F := hdrop x (mem_of_getLast?_eq hxlast)
        omega
  · refine ⟨r.endSlipped + F - r.endFixed, ⟨l ++ [r], ⟨F, F, r.endSlipped + F - r.endFixed⟩, [],
      ?_, le_refl F, le_refl F, by simp, ?_, ?_⟩⟩
    · rw [hm', addStuckRange_concat_impure l r F hpure]
      simp
    · intro q hq
      rcases List.mem_append.mp hq with hql | hqr
      · exact hdrop q hql
      · have : q = r := by simpa using hqr
        subst this
        exact hp.2 q (by rw [hcat]; exact List.getLast?_concat l)
          (fun hh => hpure hh.symm)
    · intro q hq
      have hrbF : r.endFixed < F :=
        hp.2 r (by rw [hcat]; exact List.getLast?_concat l) (fun hh => hpure hh.symm)
      rcases List.mem_append.mp hq with hql | hqr
      · have hqc : q.endSlipped ≤ r.endSlipped :=
          chain_le_getLast (fun t => t.endSlipped) (fun p t hlk => hlk.2.1) (l ++ [r])
            (by rw [List.chain'_append]; exact hchain) r (List.getLast?_concat l) q
            (List.mem_append_left _ hql)
        omega
      · have : q = r := by simpa using hqr
        subst this
        omega

/-- A registered offset stays registered under any later call with a
larger argument. -/
theorem reg_step (m : SlipMap) (hi f s : Int) (op : SlipOp)
    (hg : GoodMap m hi) (hr : Reg m f s) (hf : f ≤ hi) (harg : hi ≤ op.arg) :
    Reg (m.applyOp op) f s := by
  obtain ⟨hne, hchain, hnn, hlast⟩ := hg
  obtain ⟨l₁, r, l₂, hmap, hfa, hab, hs, hb, hc⟩ := hr
  rcases List.eq_nil_or_concat l₂ with rfl | ⟨l₂', z, hl₂⟩
  · -- the registered range is the last range
    have hm' : m = ⟨l₁ ++ [r]⟩ := by cases m; simp_all
    have hrb : r.endFixed ≤ hi := by
      refine hlast r ?_
      rw [hmap]
      exact List.getLast?_concat l₁
    cases op with
    | slipped g =>
      simp only [SlipMap.applyOp, SlipOp.arg] at harg ⊢
      refine ⟨l₁, ⟨r.endStuckFixed, g, r.endSlipped⟩, [], ?_, by simpa using hfa,
        by simp; omega, by simpa using hs, hb, hc⟩
      rw [hm', addSlippedRange_concat]
    | stuck g =>
      simp only [SlipMap.applyOp, SlipOp.arg] at harg ⊢
      by_cases hpure : r.endFixed = r.endStuckFixed
      · refine ⟨l₁, ⟨g, g, r.endSlipped + g - r.endFixed⟩, [], ?_, by simp; omega,
          by simp, by simp; omega, hb, hc⟩
        rw [hm', addStuckRange_concat_pure l₁ r g hpure]
      · refine ⟨l₁, r, [⟨g, g, r.endSlipped + g - r.endFixed⟩], ?_, hfa, hab, hs, hb, hc⟩
        rw [hm', addStuckRange_concat_impure l₁ r g hpure]
  · -- the registered range is frozen inside the list
    rw [List.concat_eq_append] at hl₂
    subst hl₂
    have hmap' : m.map = (l₁ ++ r :: l₂') ++ [z] := by
      rw [hmap]; simp
    have hm' : m = ⟨(l₁ ++ r :: l₂') ++ [z]⟩ := by cases m; simp_all
    cases op with
    | slipped g =>
      simp only [SlipMap.applyOp] at *
      refine ⟨l₁, r, l₂' ++ [⟨z.endStuckFixed, g, z.endSlipped⟩], ?_, hfa, hab, hs, hb, hc⟩
      rw [hm', addSlippedRange_concat]
      simp
    | stuck g =>
      simp only [SlipMap.applyOp] at *
      by_cases hpure : z.endFixed = z.endStuckFixed
      · refine ⟨l₁, r, l₂' ++ [⟨g, g, z.endSlipped + g - z.endFixed⟩], ?_, hfa, hab, hs, hb, hc⟩
        rw [hm', addStuckRange_concat_pure _ z g hpure]
        simp
      · refine ⟨l₁, r, l₂' ++ [z, ⟨g, g, z.endSlipped + g - z.endFixed⟩], ?_,
          hfa, hab, hs, hb, hc⟩
        rw [hm', addStuckRange_concat_impure _ z g hpure]
        simp

/-- A registered offset survives a whole chain of later calls. -/
theorem reg_fold (ops : List SlipOp) :
    ∀ (m : SlipMap) (hi f s : Int), GoodMap m hi → Reg m f s → f ≤ hi →
      argsLB hi ops = true → Reg (ops.foldl SlipMap.applyOp m) f s := by
  induction ops with
  | nil => intro m hi f s _ hr _ _; exact hr
  | cons op rest ih =>
    intro m hi f s hg hr hf hargs
    rw [argsLB, Bool.and_eq_true, decide_eq_true_eq] at hargs
    rw [List.foldl_cons]
    exact ih _ op.arg f s (goodMap_applyOp m hi op hg hargs.1)
      (reg_step m hi f s op hg hr hf hargs.1) (le_trans hf hargs.1) hargs.2

/-- A registered offset really does round-trip through the two lookup
functions. -/
theorem reg_roundtrip (m : SlipMap) (f s : Int) (hr : Reg m f s) :
    m.slippedByFixed f = some s ∧ m.fixedBySlipped s = some f := by
  obtain ⟨l₁, r, l₂, hmap, hfa, hab, hs, hb, hc⟩ := hr
  constructor
  · rw [slippedByFixed_map_find, hmap,
      find?_append_first l₁ r l₂
        (fun q hq => by have := hb q hq; simp only [decide_eq_false_iff_not]; omega)
        (by simp only [decide_eq_true_eq]; omega)]
    have hmax : max 0 (r.endStuckFixed - f) = r.endStuckFixed - f :=
      max_eq_right (by omega)
    simp only [Option.map_some', Option.some.injEq, slipVal, hmax]
    omega
  · rw [fixedBySlipped_map_find, hmap,
      find?_append_first l₁ r l₂
        (fun q hq => by have := hc q hq; simp only [decide_eq_false_iff_not]; omega)
        (by simp only [decide_eq_true_eq]; omega)]
    simp only [Option.map_some', Option.some.injEq]
    omega

/-- Splitting an `argsLB` chain at an append point. -/
theorem argsLB_append (lo : Int) (l₁ l₂ : List SlipOp) :
    argsLB lo (l₁ ++ l₂) = (argsLB lo l₁ && argsLB (lastArgD lo l₁) l₂) := by
  induction l₁ generalizing lo with
  | nil => simp [argsLB, lastArgD]
  | cons op t ih => simp [argsLB, lastArgD, ih op.arg, Bool.and_assoc]

/-- The amendment check really bounds the slipped arguments before a given
later `addStuckRange` call. -/
theorem slippedLtLaterStuck_extract (pre post : List SlipOp) (f : Int)
    (h : slippedLtLaterStuck (pre ++ SlipOp.stuck f :: post) = true) :
    ∀ g, SlipOp.slipped g ∈ pre → g < f := by
  induction pre with
  | nil => intro g hg; simp at hg
  | cons op pre' ih =>
    intro g hg
    cases op with
    | stuck h0 =>
      rw [List.cons_append] at h
      simp only [slippedLtLaterStuck] at h
      rcases List.mem_cons.mp hg with heq | hmem
      · exact absurd heq (by simp)
      · exact ih h g hmem
    | slipped g0 =>
      rw [List.cons_append] at h
      simp only [slippedLtLaterStuck, Bool.and_eq_true] at h
      rcases List.mem_cons.mp hg with heq | hmem
      · have hg0 : g = g0 := by cases heq; rfl
        subst hg0
        have hmemf : SlipOp.stuck f ∈ pre' ++ SlipOp.stuck f :: post :=
          List.mem_append_right _ (List.mem_cons_self _ _)
        have := List.all_eq_true.mp h.1 (SlipOp.stuck f) hmemf
        simpa using this
      · exact ih h.2 g hmem

/-- C1 amended: run any call sequence with non-negative, non-decreasing
arguments in which every `addSlippedRange` argument is strictly below every
later `addStuckRange` argument.  Then every offset `f` passed to
`addStuckRange` satisfies `fixedBySlipped (slippedByFixed f) = f` on the
final map, whatever `addSlippedRange` calls were interleaved. -/
theorem c1_roundtrip_amended (pre post : List SlipOp) (f : Int)
    (hargs : argsLB 0 (pre ++ SlipOp.stuck f :: post) = true)
    (hamend : slippedLtLaterStuck (pre ++ SlipOp.stuck f :: post) = true) :
    ∃ s, (runOps (pre ++ SlipOp.stuck f :: post)).slippedByFixed f = some s ∧
      (runOps (pre ++ SlipOp.stuck f :: post)).fixedBySlipped s = some f := by
  have hslip := slippedLtLaterStuck_extract pre post f hamend
  rw [argsLB_append, Bool.and_eq_true] at hargs
  obtain ⟨hpre, hrest⟩ := hargs
  rw [argsLB, Bool.and_eq_true, decide_eq_true_eq] at hrest
  obtain ⟨hlef, hpost⟩ := hrest
  simp only [SlipOp.arg] at hlef
  have hrw : runOps (pre ++ SlipOp.stuck f :: post) =
      post.foldl SlipMap.applyOp
        (SlipMap.applyOp (pre.foldl SlipMap.applyOp ⟨[]⟩) (SlipOp.stuck f)) := by
    rw [runOps, List.foldl_append, List.foldl_cons]
  cases pre with
  | nil =>
    have h0f : (0 : Int) ≤ f := by simpa [lastArgD] using hlef
    have hg0 : GoodMap (SlipMap.applyOp ⟨[]⟩ (SlipOp.stuck f)) f :=
      goodMap_init (SlipOp.stuck f) (by simpa [SlipOp.arg] using h0f)
    have hreg0 : Reg (SlipMap.applyOp ⟨[]⟩ (SlipOp.stuck f)) f f := by
      refine ⟨[], ⟨f, f, f⟩, [], ?_, le_refl f, le_refl f, by simp, by simp, by simp⟩
      simp [SlipMap.applyOp, SlipMap.addStuckRange]
    have hregN := reg_fold post _ f f f hg0 hreg0 (le_refl f) hpost
    rw [hrw]
    exact ⟨f, reg_roundtrip _ f f (by simpa using hregN)⟩
  | cons p₀ pre' =>
    rw [argsLB, Bool.and_eq_true, decide_eq_true_eq] at hpre
    obtain ⟨h0p, hpre'⟩ := hpre
    have hg0 := goodMap_init p₀ h0p
    have hp0 : PreC1 (SlipMap.applyOp ⟨[]⟩ p₀) f :=
      preC1_init p₀ f h0p (fun g hgg => hslip g (by simp [hgg]))
    have hslip' : ∀ g, SlipOp.slipped g ∈ pre' → g < f :=
      fun g hgm => hslip g (by simp [hgm])
    obtain ⟨hgN, hpN⟩ := preC1_fold pre' _ p₀.arg f hg0 hp0 hpre' hslip'
    have hle : lastArgD p₀.arg pre' ≤ f := by simpa [lastArgD] using hlef
    obtain ⟨s, hreg⟩ := reg_establish _ _ f hgN hpN hle
    have hgood' : GoodMap ((pre'.foldl SlipMap.applyOp
        (SlipMap.applyOp ⟨[]⟩ p₀)).addStuckRange f) f :=
      goodMap_addStuck _ _ f hgN hle
    have hregN := reg_fold post _ f f s hgood' hreg (le_refl f) hpost
    rw [hrw]
    refine ⟨s, reg_roundtrip _ f s ?_⟩
    rw [List.foldl_cons]
    exact hregN

/-- C1 witness: a concrete run with an interleaved slipped range whose
argument stays below the later stuck argument. -/
theorem c1_roundtrip_amended_witness :
    argsLB 0 ([SlipOp.stuck 1, SlipOp.slipped 3] ++
      SlipOp.stuck 4 :: [SlipOp.slipped 6]) = true ∧
    slippedLtLaterStuck ([SlipOp.stuck 1, SlipOp.slipped 3] ++
      SlipOp.stuck 4 :: [SlipOp.slipped 6]) = true ∧
    ∃ s, (runOps ([SlipOp.stuck 1, SlipOp.slipped 3] ++
        SlipOp.stuck 4 :: [SlipOp.slipped 6])).slippedByFixed 4 = some s ∧
      (runOps ([SlipOp.stuck 1, SlipOp.slipped 3] ++
        SlipOp.stuck 4 :: [SlipOp.slipped 6])).fixedBySlipped s = some 4 :=
  ⟨by decide, by decide,
    c1_roundtrip_amended [SlipOp.stuck 1, SlipOp.slipped 3] [SlipOp.slipped 6] 4
      (by decide) (by decide)⟩

/-! ### Range ordering when the first call is addStuckRange (claim C5) -/

/-- Adjacency relation between consecutive ranges when the first call was
`addStuckRange`: the earlier range's `endFixed` stays below the later
range's `endStuckFixed`, and `endSlipped` is non-decreasing. -/
def SlipRange.slink (p r : SlipRange) : Prop :=
  p.endFixed ≤ r.endStuckFixed ∧ p.endSlipped ≤ r.endSlipped

/-- Invariant of SlipMap states reachable from an initial `addStuckRange`
by calls with non-decreasing arguments; `hi` is the last argument. -/
def OrderedMap (m : SlipMap) (hi : Int) : Prop :=
  m.map ≠ [] ∧ List.Chain' SlipRange.slink m.map ∧
  (∀ r ∈ m.map, r.endStuckFixed ≤ r.endFixed) ∧
  (∀ x, m.map.getLast? = some x → x.endFixed = hi)

/-- OrderedMap after the initial `addStuckRange`. -/
theorem orderedMap_init (a : Int) :
    OrderedMap (SlipMap.addStuckRange ⟨[]⟩ a) a := by
  refine ⟨by simp [SlipMap.addStuckRange], by simp [SlipMap.addStuckRange], ?_, ?_⟩
  · intro r hr
    simp only [SlipMap.addStuckRange, List.getLast?_nil, List.mem_singleton] at hr
    simp [hr]
  · intro x hx
    simp only [SlipMap.addStuckRange, List.getLast?_nil, List.getLast?_singleton,
      Option.some.injEq] at hx
    rw [← hx]

/-- OrderedMap is preserved by `addSlippedRange` with a larger argument. -/
theorem orderedMap_addSlipped (m : SlipMap) (hi g : Int)
    (hm : OrderedMap m hi) (hg : hi ≤ g) :
    OrderedMap (m.addSlippedRange g) g := by
  obtain ⟨hne, hchain, hab, hlast⟩ := hm
  obtain ⟨l, r, hcat⟩ := map_eq_concat_of_ne m hne
  have hm' : m = ⟨l ++ [r]⟩ := by cases m; simp_all
  have hrb : r.endFixed = hi := hlast r (by rw [hcat]; exact List.getLast?_concat l)
  have hrab : r.endStuckFixed ≤ r.endFixed := hab r (by rw [hcat]; simp)
  rw [hcat, List.chain'_append] at hchain
  refine ⟨?_, ?_, ?_, ?_⟩
  · rw [hm', addSlippedRange_concat]; simp
  · rw [hm', addSlippedRange_concat, List.chain'_append]
    refine ⟨hchain.1, List.chain'_singleton _, ?_⟩
    intro x hx y hy
    simp only [List.head?_cons, Option.mem_def, Option.some.injEq] at hy
    have hlk := hchain.2.2 x hx r (by simp)
    subst hy
    exact ⟨by simpa using hlk.1, by simpa using hlk.2⟩
  · intro q hq
    rw [hm', addSlippedRange_concat] at hq
    rcases List.mem_append.mp hq with hql | hqr
    · exact hab q (by rw [hcat]; exact List.mem_append_left _ hql)
    · have : q = ⟨r.endStuckFixed, g, r.endSlipped⟩ := by simpa using hqr
      subst this
      simp only
      omega
  · intro x hx
    rw [hm', addSlippedRange_concat, List.getLast?_concat] at hx
    cases hx
    rfl

/-- OrderedMap is preserved by `addStuckRange` with a larger argument. -/
theorem orderedMap_addStuck (m : SlipMap) (hi g : Int)
    (hm : OrderedMap m hi) (hg : hi ≤ g) :
    OrderedMap (m.addStuckRange g) g := by
  obtain ⟨hne, hchain, hab, hlast⟩ := hm
  obtain ⟨l, r, hcat⟩ := map_eq_concat_of_ne m hne
  have hm' : m = ⟨l ++ [r]⟩ := by cases m; simp_all
  have hrb : r.endFixed = hi := hlast r (by rw [hcat]; exact List.getLast?_concat l)
  have hrab : r.endStuckFixed ≤ r.endFixed := hab r (by rw [hcat]; simp)
  rw [hcat, List.chain'_append] at hchain
  by_cases hpure : r.endFixed = r.endStuckFixed
  · refine ⟨?_, ?_, ?_, ?_⟩
    · rw [hm', addStuckRange_concat_pure l r g hpure]; simp
    · rw [hm', addStuckRange_concat_pure l r g hpure, List.chain'_append]
      refine ⟨hchain.1, List.chain'_singleton _, ?_⟩
      intro x hx y hy
      simp only [List.head?_cons, Option.mem_def, Option.some.injEq] at hy
      have hlk := hchain.2.2 x hx r (by simp)
      obtain ⟨h1, h2⟩ := hlk
      subst hy
      exact ⟨by simp; omega, by simp; omega⟩
    · intro q hq
      rw [hm', addStuckRange_concat_pure l r g hpure] at hq
      rcases List.mem_append.mp hq with hql | hqr
      · exact hab q (by rw [hcat]; exact List.mem_append_left _ hql)
      · have : q = ⟨g, g, r.endSlipped + g - r.endFixed⟩ := by simpa using hqr
        subst this
        simp
    · intro x hx
      rw [hm', addStuckRange_concat_pure l r g hpure, List.getLast?_concat] at hx
      cases hx
      rfl
  · refine ⟨?_, ?_, ?_, ?_⟩
    · rw [hm', addStuckRange_concat_impure l r g hpure]; simp
    · rw [hm', addStuckRange_concat_impure l r g hpure]
      have hsplit : l ++ [r, SlipRange.mk g g (r.endSlipped + g - r.endFixed)] =
          (l ++ [r]) ++ [SlipRange.mk g g (r.endSlipped + g - r.endFixed)] := by simp
      rw [hsplit, List.chain'_append]
      refine ⟨by rw [List.chain'_append]; exact hchain, List.chain'_singleton _, ?_⟩
      intro x hx y hy
      rw [List.getLast?_concat] at hx
      simp only [List.head?_cons, Option.mem_def, Option.some.injEq] at hy
      cases hx
      subst hy
      exact ⟨by simp; omega, by simp; omega⟩
    · intro q hq
      rw [hm', addStuckRange_concat_impure l r g hpure] at hq
      have hsplit : l ++ [r, SlipRange.mk g g (r.endSlipped + g - r.endFixed)] =
          (l ++ [r]) ++ [SlipRange.mk g g (r.endSlipped + g - r.endFixed)] := by simp
      rw [hsplit] at hq
      rcases List.mem_append.mp hq with hql | hqr
      · exact hab q (by rw [hcat]; exact hql)
      · have : q = ⟨g, g, r.endSlipped + g - r.endFixed⟩ := by simpa using hqr
        subst this
        simp
    · intro x hx
      rw [hm', addStuckRange_concat_impure l r g hpure] at hx
      have hsplit : l ++ [r, SlipRange.mk g g (r.endSlipped + g - r.endFixed)] =
          (l ++ [r]) ++ [SlipRange.mk g g (r.endSlipped + g - r.endFixed)] := by simp
      rw [hsplit, List.getLast?_concat] at hx
      cases hx
      rfl

/-- OrderedMap is preserved along a whole chain of calls. -/
theorem orderedMap_fold (ops : List SlipOp) :
    ∀ (m : SlipMap) (hi : Int), OrderedMap m hi → argsLB hi ops = true →
      OrderedMap (ops.foldl SlipMap.applyOp m) (lastArgD hi ops) := by
  induction ops with
  | nil => intro m hi hm _; exact hm
  | cons op rest ih =>
    intro m hi hm hargs
    rw [argsLB, Bool.and_eq_true, decide_eq_true_eq] at hargs
    rw [List.foldl_cons, lastArgD]
    have hstep : OrderedMap (m.applyOp op) op.arg := by
      cases op with
      | stuck g => exact orderedMap_addStuck m hi g hm hargs.1
      | slipped g => exact orderedMap_addSlipped m hi g hm hargs.1
    exact ih _ op.arg hstep hargs.2

/-- Chains transfer along implications that may use a per-element fact. -/
theorem chain'_of_chain' (P : SlipRange → Prop)
    (R S : SlipRange → SlipRange → Prop)
    (himp : ∀ p r, P p → P r → R p r → S p r) :
    ∀ (l : List SlipRange), (∀ x ∈ l, P x) → List.Chain' R l → List.Chain' S l := by
  intro l
  induction l with
  | nil => intro _ _; exact List.chain'_nil
  | cons a t ih =>
    intro hP hc
    cases t with
    | nil => exact List.chain'_singleton a
    | cons b t' =>
      rw [List.chain'_cons] at hc ⊢
      exact ⟨himp a b (hP a (by simp)) (hP b (by simp)) hc.1,
        ih (fun x hx => hP x (by simp [hx])) hc.2⟩

/-- A truncated `argsLB` chain is still a chain. -/
theorem argsLB_take (lo : Int) (ops : List SlipOp) (n : Nat)
    (h : argsLB lo ops = true) : argsLB lo (ops.take n) = true := by
  induction ops generalizing lo n with
  | nil => simp [List.take_nil, argsLB]
  | cons op t ih =>
    cases n with
    | zero => simp [argsLB]
    | succ n' =>
      rw [argsLB, Bool.and_eq_true, decide_eq_true_eq] at h
      rw [List.take_succ_cons, argsLB, Bool.and_eq_true, decide_eq_true_eq]
      exact ⟨h.1, ih op.arg n' h.2⟩

/-- C5 amended: when the first call is `addStuckRange` and the arguments
are non-decreasing, every reachable state (every prefix of the call
sequence) satisfies the claimed ordering: `endStuckFixed ≤ endFixed` within
each range, and all three fields non-decreasing across consecutive
ranges. -/
theorem c5_invariant_amended (a : Int) (rest : List SlipOp)
    (h : argsLB a rest = true) (n : Nat) :
    (∀ r ∈ (runOps ((SlipOp.stuck a :: rest).take n)).map,
        r.endStuckFixed ≤ r.endFixed) ∧
    List.Chain' (fun p r => p.endStuckFixed ≤ r.endStuckFixed)
      (runOps ((SlipOp.stuck a :: rest).take n)).map ∧
    List.Chain' (fun p r => p.endFixed ≤ r.endFixed)
      (runOps ((SlipOp.stuck a :: rest).take n)).map ∧
    List.Chain' (fun p r => p.endSlipped ≤ r.endSlipped)
      (runOps ((SlipOp.stuck a :: rest).take n)).map := by
  cases n with
  | zero =>
    simp only [List.take_zero, runOps, List.foldl_nil]
    exact ⟨by simp, List.chain'_nil, List.chain'_nil, List.chain'_nil⟩
  | succ n' =>
    rw [List.take_succ_cons]
    have hord : OrderedMap (runOps (SlipOp.stuck a :: rest.take n'))
        (lastArgD a (rest.take n')) := by
      rw [runOps, List.foldl_cons]
      exact orderedMap_fold (rest.take n') _ a (orderedMap_init a)
        (argsLB_take a rest n' h)
    obtain ⟨hne, hchain, hab, _⟩ := hord
    refine ⟨hab, ?_, ?_, ?_⟩
    · exact chain'_of_chain' (fun r => r.endStuckFixed ≤ r.endFixed) _ _
        (fun p r hp _ hlk => by
          obtain ⟨h1, _⟩ := hlk
          omega) _ hab hchain
    · exact chain'_of_chain' (fun r => r.endStuckFixed ≤ r.endFixed) _ _
        (fun p r _ hr hlk => by
          obtain ⟨h1, _⟩ := hlk
          omega) _ hab hchain
    · exact chain'_of_chain' (fun r => r.endStuckFixed ≤ r.endFixed) _ _
        (fun p r _ _ hlk => hlk.2) _ hab hchain

/-- C5 witness at a concrete sequence and prefix length. -/
theorem c5_invariant_amended_witness :
    argsLB 1 [SlipOp.slipped 3, SlipOp.stuck 4] = true ∧
    ((∀ r ∈ (runOps ((SlipOp.stuck 1 :: [SlipOp.slipped 3, SlipOp.stuck 4]).take 3)).map,
        r.endStuckFixed ≤ r.endFixed) ∧
     List.Chain' (fun p r => p.endStuckFixed ≤ r.endStuckFixed)
       (runOps ((SlipOp.stuck 1 :: [SlipOp.slipped 3, SlipOp.stuck 4]).take 3)).map ∧
     List.Chain' (fun p r => p.endFixed ≤ r.endFixed)
       (runOps ((SlipOp.stuck 1 :: [SlipOp.slipped 3, SlipOp.stuck 4]).take 3)).map ∧
     List.Chain' (fun p r => p.endSlipped ≤ r.endSlipped)
       (runOps ((SlipOp.stuck 1 :: [SlipOp.slipped 3, SlipOp.stuck 4]).take 3)).map) :=
  ⟨by decide, c5_invariant_amended 1 [SlipOp.slipped 3, SlipOp.stuck 4] (by decide) 3⟩

/-! ## display.ts -/

/-- Embedding of `blockify` (display.ts, lines 33-62). -/
def blockify (display : String) : String :=
  match display with
  | "inline-flex" => "flex"
  | "inline-grid" => "grid"
  | "inline-table" => "table"
  | "inline" => "block"
  | "table-row-group" => "block"
  | "table-column" => "block"
  | "table-column-group" => "block"
  | "table-header-group" => "block"
  | "table-footer-group" => "block"
  | "table-row" => "block"
  | "table-cell" => "block"
  | "table-caption" => "block"
  | "inline-block" => "block"
  | other => other

/-- Embedding of `isAbsolutelyPositioned` (display.ts).  Idents are modelled
as their names; a missing value is `none`. -/
def isAbsolutelyPositioned (position : Option String) : Bool :=
  position = some "absolute" || position = some "fixed"

/-- The computed display/position/float triple (display.ts). -/
structure ComputedDisplay where
  display : Option String
  position : Option String
  float : Option String
deriving DecidableEq, Repr

/-- Embedding of `getComputedDislayValue` (display.ts, lines 76-91); the
misspelling is the source's. -/
def getComputedDislayValue (display position float : Option String)
    (isRoot : Bool) : ComputedDisplay :=
  if display = some "none" then ⟨display, position, float⟩
  else if isAbsolutelyPositioned position then
    ⟨display.map blockify, position, some "none"⟩
  else if (float.isSome && !(float = some "none")) || isRoot then
    ⟨display.map blockify, position, float⟩
  else ⟨display, position, float⟩

/-- Embedding of `Display.isBlock` (display.ts, lines 96-106). -/
def displayIsBlock (display position float : Option String) (isRoot : Bool) : Bool :=
  (getComputedDislayValue display position float isRoot).display = some "block"

/-! ## css-styler.ts: Box, BoxStack, FlowChunk -/

/-- Modelled from the spec: `Vtree.FlowChunk` (vtree.ts is not under src/);
spec section 3 lists its fields: "flow name, originating node, start offset
(full-document), priority, linger count, exclusive flag, repeated/static
flag, last flag, inherited break-before value".  The originating node is an
abstract identifier; an infinite linger count is `none`. -/
structure FlowChunk where
  flowName : String
  element : Nat
  startOffset : Int
  priority : Int
  linger : Option Int
  exclusive : Bool
  repeated : Bool
  last : Bool
  breakBefore : Option String
deriving DecidableEq, Repr

/-- Modelled from the spec: `Vtree.nonTrivialContent` (vtree.ts is not under
src/); spec section 4.3: an after/before box is "retained only if resolved
content is non-trivial (not empty/none/normal)". -/
def nonTrivialContent (v : Option String) : Bool :=
  match v with
  | none => false
  | some s => !(s = "" || s = "none" || s = "normal")

/-- Evaluated lookup of a cascaded property: the value recorded in the
element style, or the given default.  This is the value
`Box.styleValue` computes on a cache miss (`cv ? cv.evaluate(...) :
defaultValue || null`), with cascaded values modelled as already
evaluated ident names. -/
def evalProp (props : List (String × String)) (name : String)
    (defaultValue : Option String) : Option String :=
  match props.lookup name with
  | some s => some s
  | none => defaultValue

/-- The state of one (pseudo)element box: the fields of the `Box` class
(css-styler.ts, lines 142-279) shared by element boxes and pseudo-element
boxes.  The cascaded style is a list of evaluated (property, ident)
pairs; the write-once caches `isBlockValue`, `hasBoxValue` and
`styleValues` are explicit. -/
structure BoxCore where
  props : List (String × String)
  offset : Int
  isRoot : Bool
  flowName : String
  atBlockStart : Bool
  atFlowStart : Bool
  isParentBoxDisplayed : Bool
  isBlockValue : Option Bool
  hasBoxValue : Option Bool
  styleValues : List (String × Option String)
  breakBefore : Option String
deriving DecidableEq, Repr

/-- A fresh box state as the `Box` constructor initialises it, before any
lazy field is computed. -/
def mkBoxCore (props : List (String × String)) (offset : Int) (isRoot : Bool)
    (flowName : String) (atBlockStart atFlowStart isParentBoxDisplayed : Bool) :
    BoxCore :=
  ⟨props, offset, isRoot, flowName, atBlockStart, atFlowStart,
   isParentBoxDisplayed, none, none, [], none⟩

/-- Embedding of `Box.styleValue` (css-styler.ts, lines 232-240): consult
the write-once cache, otherwise evaluate the cascaded value or fall back to
the default, and record the result (possibly `null`). -/
def BoxCore.styleValue (b : BoxCore) (name : String)
    (defaultValue : Option String := none) : Option String × BoxCore :=
  match b.styleValues.lookup name with
  | some v => (v, b)
  | none =>
    let v := evalProp b.props name defaultValue
    (v, { b with styleValues := (name, v) :: b.styleValues })

/-- Embedding of `Box.displayValue` (css-styler.ts, lines 242-244). -/
def BoxCore.displayValue (b : BoxCore) : Option String × BoxCore :=
  b.styleValue "display" (some "inline")

/-- Embedding of `Box.isBlock` (css-styler.ts, lines 246-259), with its
write-once memoisation made explicit. -/
def BoxCore.isBlock (b : BoxCore) : Bool × BoxCore :=
  match b.isBlockValue with
  | some v => (v, b)
  | none =>
    let d := b.displayValue
    let p := d.2.styleValue "position"
    let f := p.2.styleValue "float"
    let v := displayIsBlock d.1 p.1 f.1 b.isRoot
    (v, { f.2 with isBlockValue := some v })

/-- Embedding of `Box.hasBox` (css-styler.ts, lines 261-267), with its
write-once memoisation made explicit. -/
def BoxCore.hasBox (b : BoxCore) : Bool × BoxCore :=
  match b.hasBoxValue with
  | some v => (v, b)
  | none =>
    let d := b.displayValue
    let v := b.isParentBoxDisplayed && !(d.1 = some "none")
    (v, { d.2 with hasBoxValue := some v })

/-- Embedding of `Box.getBreakValue` (css-styler.ts, lines 269-278). -/
def BoxCore.getBreakValue (b : BoxCore) (edge : String) : Option String × BoxCore :=
  let ib := b.isBlock
  if ib.1 then ib.2.styleValue ("break-" ++ edge)
  else (none, ib.2)

/-- The cascaded style of a pseudo element.  Spec section 9: pseudo-element
nesting is bounded (before/after only), so a pseudo style carries no
nested pseudo styles of its own. -/
structure PseudoStyle where
  props : List (String × String)
deriving DecidableEq, Repr

/-- The cascaded style of an element: evaluated properties plus the
optional `_pseudos` before/after styles. -/
structure ElementStyle where
  props : List (String × String)
  pseudoBefore : Option PseudoStyle
  pseudoAfter : Option PseudoStyle
deriving DecidableEq, Repr

/-- The `Box` constructor run on a pseudo-element style (css-styler.ts,
lines 151-194 with `isRoot = false`, `isParentBoxDisplayed = true` as at
both construction sites).  The FlowChunk is threaded explicitly: the JS
code mutates the shared `flowChunk` object, folding a forced break-before
into `flowChunk.breakBefore` when the box is at flow start. -/
def makePseudoBox (style : PseudoStyle) (offset : Int) (flowChunk : FlowChunk)
    (atBlockStart atFlowStart : Bool) : BoxCore × FlowChunk :=
  let b0 := mkBoxCore style.props offset false flowChunk.flowName atBlockStart
    atFlowStart true
  let b1 := b0.hasBox.2
  let g := b1.getBreakValue "before"
  let breakBefore := resolveEffectiveBreakValue g.1 none
  let b3 := { g.2 with breakBefore := breakBefore }
  if atFlowStart && isForcedBreakValue breakBefore then
    (b3, { flowChunk with
            breakBefore := resolveEffectiveBreakValue flowChunk.breakBefore breakBefore })
  else (b3, flowChunk)

/-- An element box: its core state plus the `_pseudos` styles and the
retained before/after pseudo boxes. -/
structure Box where
  core : BoxCore
  pseudoBefore : Option PseudoStyle
  pseudoAfter : Option PseudoStyle
  beforeBox : Option BoxCore
  afterBox : Option BoxCore
deriving DecidableEq, Repr

/-- First half of the `Box` constructor body (css-styler.ts, lines
162-183): when the box has a box and a `::before` pseudo style exists,
construct the pseudo box (its block-start flag is `this.isBlock()`, which
memoises `isBlockValue` on the parent), retain it only for non-trivial
content, and inherit its break-before.  Returns (updated core, retained
beforeBox, inherited break-before, updated chunk). -/
def makeBoxStage (style : ElementStyle) (offset : Int)
    (flowChunk : FlowChunk) (atFlowStart : Bool) (hb : Bool) (c1 : BoxCore) :
    BoxCore × Option BoxCore × Option String × FlowChunk :=
  if hb then
    match style.pseudoBefore with
    | some ps =>
      let ibp := c1.isBlock
      let mk := makePseudoBox ps offset flowChunk ibp.1 atFlowStart
      let cnt := mk.1.styleValue "content"
      if nonTrivialContent cnt.1 then (ibp.2, some cnt.2, cnt.2.breakBefore, mk.2)
      else (ibp.2, none, none, mk.2)
    | none => (c1, none, none, flowChunk)
  else (c1, none, none, flowChunk)

/-- Second half of the `Box` constructor body (css-styler.ts, lines
184-193): fold the own `break-before` value into the inherited one, and
fold a forced result into the (threaded) FlowChunk when at flow start. -/
def makeBoxFinish (style : ElementStyle) (atFlowStart : Bool)
    (stage : BoxCore × Option BoxCore × Option String × FlowChunk) :
    Box × FlowChunk :=
  let g := stage.1.getBreakValue "before"
  let bb := resolveEffectiveBreakValue g.1 stage.2.2.1
  let cfin := { g.2 with breakBefore := bb }
  let chunkFin :=
    if atFlowStart && isForcedBreakValue bb then
      { stage.2.2.2 with
        breakBefore := resolveEffectiveBreakValue stage.2.2.2.breakBefore bb }
    else stage.2.2.2
  ({ core := cfin, pseudoBefore := style.pseudoBefore, pseudoAfter := style.pseudoAfter,
     beforeBox := stage.2.1, afterBox := none }, chunkFin)

/-- Embedding of the `Box` constructor on an element style (css-styler.ts,
lines 151-194), composed from `makeBoxStage` and `makeBoxFinish` after the
initial `hasBox` memoisation. -/
def makeBox (style : ElementStyle) (offset : Int) (isRoot : Bool)
    (flowChunk : FlowChunk) (atBlockStart atFlowStart isParentBoxDisplayed : Bool) :
    Box × FlowChunk :=
  let c0 := mkBoxCore style.props offset isRoot flowChunk.flowName atBlockStart
    atFlowStart isParentBoxDisplayed
  let hbp := c0.hasBox
  makeBoxFinish style atFlowStart
    (makeBoxStage style offset flowChunk atFlowStart hbp.1 hbp.2)

/-- Embedding of `Box.buildAfterPseudoElementBox` (css-styler.ts, lines
204-230), with the box's FlowChunk threaded explicitly (the nested `Box`
constructor may fold a forced break-before into it). -/
def Box.buildAfterPseudoElementBox (b : Box) (offset : Int) (chunk : FlowChunk)
    (atBlockStart atFlowStart : Bool) : Box × FlowChunk :=
  let hbp := b.core.hasBox
  let b1 := { b with core := hbp.2 }
  if hbp.1 then
    match b.pseudoAfter with
    | some ps =>
      let mk := makePseudoBox ps offset chunk atBlockStart atFlowStart
      let cnt := mk.1.styleValue "content"
      if nonTrivialContent cnt.1 then ({ b1 with afterBox := some cnt.2 }, mk.2)
      else (b1, mk.2)
    | none => (b1, chunk)
  else (b1, chunk)

/-- Embedding of `BoxStack` state (css-styler.ts, lines 284-290): the box
stack (last element is the top), the pending block-start/flow-start flags,
and the auxiliary stack of saved flag pairs (atBlockStart, atFlowStart). -/
structure BoxStack where
  stack : List Box
  atBlockStart : Bool
  atFlowStart : Bool
  atStartStack : List (Bool × Bool)
deriving DecidableEq, Repr

/-- The after-pseudo break-before registration of `BoxStack.pop`
(css-styler.ts, lines 386-392): when at flow start and the popped box has
an after box, fold the after box's break-before into the chunk. -/
def popAfterBreak (bp : Box × FlowChunk) (atFlowStart : Bool) : Box × FlowChunk :=
  if atFlowStart then
    match bp.1.afterBox with
    | some ab =>
      let gb := ab.getBreakValue "before"
      ({ bp.1 with afterBox := some gb.2 },
       { bp.2 with breakBefore := resolveEffectiveBreakValue bp.2.breakBefore gb.1 })
    | none => bp
  else bp

/-- Embedding of `BoxStack.pop` (css-styler.ts, lines 383-406).  The popped
box's FlowChunk is threaded explicitly.  Popping an empty stack, or
popping across a flow boundary with an empty auxiliary stack, would crash
in JS; those cases are `none`. -/
def BoxStack.pop (s : BoxStack) (offset : Int) (chunk : FlowChunk) :
    Option (Box × BoxStack × FlowChunk) :=
  match s.stack.getLast? with
  | none => none
  | some box =>
    let rest := s.stack.dropLast
    let step2 := popAfterBreak
      (box.buildAfterPseudoElementBox offset chunk s.atBlockStart s.atFlowStart)
      s.atFlowStart
    match rest.getLast? with
    | some parent =>
      if parent.core.flowName = step2.1.core.flowName then
        let hbp := step2.1.core.hasBox
        let box3 := { step2.1 with core := hbp.2 }
        if hbp.1 then some (box3, ⟨rest, false, false, s.atStartStack⟩, step2.2)
        else some (box3, ⟨rest, s.atBlockStart, s.atFlowStart, s.atStartStack⟩, step2.2)
      else
        match s.atStartStack.getLast? with
        | none => none
        | some at1 =>
          some (step2.1, ⟨rest, at1.1, at1.2, s.atStartStack.dropLast⟩, step2.2)
    | none => some (step2.1, ⟨rest, s.atBlockStart, s.atFlowStart, s.atStartStack⟩, step2.2)

/-- The ancestor list walked by `nearestBlockStartOffset`: the stack from
the top down, skipping the box itself when it is still the top (the JS
reference comparison `parent === box` is modelled structurally). -/
def BoxStack.walkList (s : BoxStack) (box : Box) : List Box :=
  match s.stack.reverse with
  | [] => []
  | top :: rest => if top = box then rest else top :: rest

/-- The loop of `nearestBlockStartOffset` (css-styler.ts, lines 429-442):
walk the ancestors top-down, tracking the current box; `none` models the
thrown internal-invariant Error. -/
def nbsoWalk : Box → List Box → Option Int
  | _, [] => none
  | box, parent :: rest =>
    if parent.core.flowName ≠ box.core.flowName then some box.core.offset
    else if parent.core.atBlockStart = false then some parent.core.offset
    else if parent.core.isRoot then some parent.core.offset
    else nbsoWalk parent rest

/-- Embedding of `BoxStack.nearestBlockStartOffset` (css-styler.ts, lines
414-443). -/
def BoxStack.nearestBlockStartOffset (s : BoxStack) (box : Box) : Option Int :=
  if box.core.atBlockStart = false then some box.core.offset
  else nbsoWalk box (s.walkList box)

/-- Modelled from the spec: `Vtree.Flow` (vtree.ts is not under src/); spec
section 3: "name, parent flow name (flow active where this flow was first
declared), append-only ordered list of forced-break offsets".  Named
`VtreeFlow` because Mathlib already declares `Flow`. -/
structure VtreeFlow where
  flowName : String
  parentFlowName : Option String
  forcedBreakOffsets : List Int
deriving DecidableEq, Repr

/-- Embedding of the flow-list effect of `Styler.registerForcedBreakOffset`
(css-styler.ts, lines 825-844), acting on the owning flow's
`forcedBreakOffsets` array.  The method also folds the value into the
styler's `breakBeforeValues` table, which belongs to the Styler, not to
the Flow, and is not modelled here. -/
def registerForcedBreakOffset (forcedBreakOffsets : List Int)
    (breakValue : Option String) (offset : Int) : List Int :=
  if isForcedBreakValue breakValue then
    match forcedBreakOffsets.getLast? with
    | none => forcedBreakOffsets ++ [offset]
    | some lastOff =>
      if lastOff < offset then forcedBreakOffsets ++ [offset]
      else forcedBreakOffsets
  else forcedBreakOffsets

/-! ### FlowChunk immutability after creation (claim C4) -/

/-- The chunk `c'` is the chunk `c` with at most its `breakBefore`
rewritten. -/
def ChunkEvolved (c c' : FlowChunk) : Prop :=
  ∃ v, c' = { c with breakBefore := v }

theorem chunkEvolved_refl (c : FlowChunk) : ChunkEvolved c c :=
  ⟨c.breakBefore, rfl⟩

theorem chunkEvolved_trans {a b c : FlowChunk}
    (h1 : ChunkEvolved a b) (h2 : ChunkEvolved b c) : ChunkEvolved a c := by
  obtain ⟨v1, rfl⟩ := h1
  obtain ⟨v2, rfl⟩ := h2
  exact ⟨v2, rfl⟩

/-- An evolved chunk keeps every field other than `breakBefore`. -/
theorem chunkEvolved_fields {c c' : FlowChunk} (h : ChunkEvolved c c') :
    c'.flowName = c.flowName ∧ c'.element = c.element ∧
    c'.startOffset = c.startOffset ∧ c'.priority = c.priority ∧
    c'.linger = c.linger ∧ c'.exclusive = c.exclusive ∧
    c'.repeated = c.repeated ∧ c'.last = c.last := by
  obtain ⟨v, rfl⟩ := h
  exact ⟨rfl, rfl, rfl, rfl, rfl, rfl, rfl, rfl⟩


/-- A pseudo-box construction touches at most the chunk's `breakBefore`. -/
theorem makePseudoBox_chunkEvolved (style : PseudoStyle) (offset : Int)
    (chunk : FlowChunk) (abs afs : Bool) :
    ChunkEvolved chunk (makePseudoBox style offset chunk abs afs).2 := by
  unfold makePseudoBox
  dsimp only
  split
  · exact ⟨_, rfl⟩
  · exact chunkEvolved_refl chunk

/-- The before-pseudo stage of the `Box` constructor touches at most the
chunk's `breakBefore`. -/
theorem makeBoxStage_chunkEvolved (style : ElementStyle) (offset : Int)
    (chunk : FlowChunk) (afs hb : Bool) (c1 : BoxCore) :
    ChunkEvolved chunk (makeBoxStage style offset chunk afs hb c1).2.2.2 := by
  unfold makeBoxStage
  split
  · split
    · dsimp only
      split
      · exact makePseudoBox_chunkEvolved _ _ _ _ _
      · exact makePseudoBox_chunkEvolved _ _ _ _ _
    · exact chunkEvolved_refl chunk
  · exact chunkEvolved_refl chunk

/-- The break-before tail of the `Box` constructor touches at most the
chunk's `breakBefore`. -/
theorem makeBoxFinish_chunkEvolved (style : ElementStyle) (afs : Bool)
    (stage : BoxCore × Option BoxCore × Option String × FlowChunk) :
    ChunkEvolved stage.2.2.2 (makeBoxFinish style afs stage).2 := by
  unfold makeBoxFinish
  dsimp only
  split
  · exact ⟨_, rfl⟩
  · exact chunkEvolved_refl _

/-- An element-box construction touches at most the chunk's
`breakBefore`. -/
theorem makeBox_chunkEvolved (style : ElementStyle) (offset : Int)
    (isRoot : Bool) (chunk : FlowChunk) (abs afs ipd : Bool) :
    ChunkEvolved chunk (makeBox style offset isRoot chunk abs afs ipd).2 := by
  unfold makeBox
  exact chunkEvolved_trans
    (makeBoxStage_chunkEvolved style offset chunk afs _ _)
    (makeBoxFinish_chunkEvolved style afs _)

/-- Building the after-pseudo box touches at most the chunk's
`breakBefore`. -/
theorem buildAfter_chunkEvolved (b : Box) (offset : Int) (chunk : FlowChunk)
    (abs afs : Bool) :
    ChunkEvolved chunk (b.buildAfterPseudoElementBox offset chunk abs afs).2 := by
  unfold Box.buildAfterPseudoElementBox
  dsimp only
  split
  · split
    · split
      · exact makePseudoBox_chunkEvolved _ _ _ _ _
      · exact makePseudoBox_chunkEvolved _ _ _ _ _
    · exact chunkEvolved_refl chunk
  · exact chunkEvolved_refl chunk

/-- The after-pseudo break registration touches at most the chunk's
`breakBefore`. -/
theorem popAfterBreak_chunkEvolved (bp : Box × FlowChunk) (afs : Bool) :
    ChunkEvolved bp.2 (popAfterBreak bp afs).2 := by
  unfold popAfterBreak
  split
  · split
    · exact ⟨_, rfl⟩
    · exact chunkEvolved_refl _
  · exact chunkEvolved_refl _

/-- A successful `BoxStack.pop` touches at most the chunk's
`breakBefore`. -/
theorem pop_chunkEvolved (s : BoxStack) (offset : Int) (chunk : FlowChunk)
    (b : Box) (s' : BoxStack) (c' : FlowChunk)
    (h : s.pop offset chunk = some (b, s', c')) :
    ChunkEvolved chunk c' := by
  unfold BoxStack.pop at h
  split at h
  · exact absurd h (by simp)
  · rename_i box hbox
    dsimp only at h
    have hev : ChunkEvolved chunk
        (popAfterBreak
          (box.buildAfterPseudoElementBox offset chunk s.atBlockStart s.atFlowStart)
          s.atFlowStart).2 :=
      chunkEvolved_trans
        (buildAfter_chunkEvolved box offset chunk s.atBlockStart s.atFlowStart)
        (popAfterBreak_chunkEvolved _ s.atFlowStart)
    generalize hst : popAfterBreak
      (box.buildAfterPseudoElementBox offset chunk s.atBlockStart s.atFlowStart)
      s.atFlowStart = st at h hev
    split at h
    · split at h
      · split at h
        · cases h
          exact hev
        · cases h
          exact hev
      · split at h
        · exact absurd h (by simp)
        · cases h
          exact hev
    · cases h
      exact hev

/-! ### Write-once memoisation of hasBox and isBlock (claim C8) -/

/-- Fresh computation of `hasBox` on a just-constructed box: the value is
determined by `isParentBoxDisplayed` and the box's own style, and is
recorded in the write-once cache. -/
theorem hasBox_mk (props : List (String × String)) (offset : Int) (isRoot : Bool)
    (fn : String) (a f ipd : Bool) :
    (mkBoxCore props offset isRoot fn a f ipd).hasBox =
      (ipd && !(evalProp props "display" (some "inline") = some "none"),
       ⟨props, offset, isRoot, fn, a, f, ipd, none,
        some (ipd && !(evalProp props "display" (some "inline") = some "none")),
        [("display", evalProp props "display" (some "inline"))], none⟩) := rfl

/-- Fresh computation of `isBlock` right after `hasBox` on a
just-constructed box: the value is determined by the box's own style and
root flag, and is recorded in the write-once cache. -/
theorem isBlock_after_hasBox_mk (props : List (String × String)) (offset : Int)
    (isRoot : Bool) (fn : String) (a f ipd : Bool) :
    ((mkBoxCore props offset isRoot fn a f ipd).hasBox.2).isBlock =
      (displayIsBlock (evalProp props "display" (some "inline"))
        (evalProp props "position" none) (evalProp props "float" none) isRoot,
       ⟨props, offset, isRoot, fn, a, f, ipd,
        some (displayIsBlock (evalProp props "display" (some "inline"))
          (evalProp props "position" none) (evalProp props "float" none) isRoot),
        some (ipd && !(evalProp props "display" (some "inline") = some "none")),
        [("float", evalProp props "float" none),
         ("position", evalProp props "position" none),
         ("display", evalProp props "display" (some "inline"))], none⟩) := rfl

/-- A cached `hasBox` query returns the recorded value and leaves the box
untouched. -/
theorem hasBox_cached (c : BoxCore) (v : Bool) (h : c.hasBoxValue = some v) :
    c.hasBox = (v, c) := by
  unfold BoxCore.hasBox
  rw [h]

/-- A cached `isBlock` query returns the recorded value and leaves the box
untouched. -/
theorem isBlock_cached (c : BoxCore) (v : Bool) (h : c.isBlockValue = some v) :
    c.isBlock = (v, c) := by
  unfold BoxCore.isBlock
  rw [h]

/-- `styleValue` never touches the hasBox/isBlock caches. -/
theorem styleValue_preserves_memo (c : BoxCore) (n : String) (d : Option String) :
    (c.styleValue n d).2.hasBoxValue = c.hasBoxValue ∧
    (c.styleValue n d).2.isBlockValue = c.isBlockValue := by
  unfold BoxCore.styleValue
  split <;> exact ⟨rfl, rfl⟩

/-- `isBlock` never touches the hasBox cache. -/
theorem isBlock_preserves_hasBox (c : BoxCore) :
    (c.isBlock).2.hasBoxValue = c.hasBoxValue := by
  unfold BoxCore.isBlock
  split
  · rfl
  · dsimp only [BoxCore.displayValue]
    rw [(styleValue_preserves_memo _ _ _).1, (styleValue_preserves_memo _ _ _).1,
      (styleValue_preserves_memo _ _ _).1]

/-- `isBlock` records its result in the write-once cache. -/
theorem isBlock_sets_memo (c : BoxCore) :
    (c.isBlock).2.isBlockValue = some ((c.isBlock).1) := by
  unfold BoxCore.isBlock
  split
  · rename_i v h
    exact h
  · rfl

/-- `getBreakValue` never touches the hasBox cache. -/
theorem getBreakValue_preserves_hasBox (c : BoxCore) (e : String) :
    (c.getBreakValue e).2.hasBoxValue = c.hasBoxValue := by
  unfold BoxCore.getBreakValue
  dsimp only
  split
  · rw [(styleValue_preserves_memo _ _ _).1, isBlock_preserves_hasBox]
  · rw [isBlock_preserves_hasBox]

/-- `getBreakValue` leaves the isBlock cache exactly as `isBlock` left
it. -/
theorem getBreakValue_isBlock_memo (c : BoxCore) (e : String) :
    (c.getBreakValue e).2.isBlockValue = some ((c.isBlock).1) := by
  unfold BoxCore.getBreakValue
  dsimp only
  split
  · rw [(styleValue_preserves_memo _ _ _).2, isBlock_sets_memo]
  · rw [isBlock_sets_memo]

/-- The before-pseudo stage returns the parent core either untouched or
with just its `isBlock` memo computed. -/
theorem makeBoxStage_core (style : ElementStyle) (offset : Int)
    (chunk : FlowChunk) (afs hb : Bool) (c1 : BoxCore) :
    (makeBoxStage style offset chunk afs hb c1).1 =
      (if hb then
        (match style.pseudoBefore with
         | some _ => (c1.isBlock).2
         | none => c1)
       else c1) := by
  unfold makeBoxStage
  split
  · split
    · dsimp only
      split
      · rfl
      · rfl
    · rfl
  · rfl

/-- The constructor tail stores the core returned by `getBreakValue`, with
only `breakBefore` rewritten. -/
theorem makeBoxFinish_core (style : ElementStyle) (afs : Bool)
    (stage : BoxCore × Option BoxCore × Option String × FlowChunk) :
    (makeBoxFinish style afs stage).1.core =
      { (stage.1.getBreakValue "before").2 with
        breakBefore := resolveEffectiveBreakValue
          ((stage.1.getBreakValue "before").1) stage.2.2.1 } := rfl

/-- C8: for every constructed element box, `hasBoxValue` and `isBlockValue`
are already fixed at construction from the construction-time inputs
(`isParentBoxDisplayed` and the box's own style values, plus `isRoot` for
`isBlock`), and every later `hasBox()`/`isBlock()` call returns exactly the
recorded value and leaves the box state untouched — in particular later
changes in ancestor boxes cannot affect the answers. -/
theorem c8_hasBox_isBlock_memoized (style : ElementStyle) (offset : Int)
    (isRoot : Bool) (chunk : FlowChunk) (abs afs ipd : Bool) :
    ((makeBox style offset isRoot chunk abs afs ipd).1.core.hasBoxValue =
      some (ipd && !(evalProp style.props "display" (some "inline") = some "none"))) ∧
    ((makeBox style offset isRoot chunk abs afs ipd).1.core.isBlockValue =
      some (displayIsBlock (evalProp style.props "display" (some "inline"))
        (evalProp style.props "position" none)
        (evalProp style.props "float" none) isRoot)) ∧
    ((makeBox style offset isRoot chunk abs afs ipd).1.core.hasBox =
      (ipd && !(evalProp style.props "display" (some "inline") = some "none"),
       (makeBox style offset isRoot chunk abs afs ipd).1.core)) ∧
    ((makeBox style offset isRoot chunk abs afs ipd).1.core.isBlock =
      (displayIsBlock (evalProp style.props "display" (some "inline"))
        (evalProp style.props "position" none)
        (evalProp style.props "float" none) isRoot,
       (makeBox style offset isRoot chunk abs afs ipd).1.core)) := by
  set c0 := mkBoxCore style.props offset isRoot chunk.flowName abs afs ipd with hc0
  set S1 := (makeBoxStage style offset chunk afs c0.hasBox.1 c0.hasBox.2).1 with hS1
  have hbox : (makeBox style offset isRoot chunk abs afs ipd).1.core =
      { (S1.getBreakValue "before").2 with
        breakBefore := resolveEffectiveBreakValue ((S1.getBreakValue "before").1)
          (makeBoxStage style offset chunk afs c0.hasBox.1 c0.hasBox.2).2.2.1 } := rfl
  have hhbv : S1.hasBoxValue =
      some (ipd && !(evalProp style.props "display" (some "inline") = some "none")) := by
    rw [hS1, makeBoxStage_core]
    split
    · split
      · rw [isBlock_preserves_hasBox]
        simp [hc0, hasBox_mk]
      · simp [hc0, hasBox_mk]
    · simp [hc0, hasBox_mk]
  have hibv : (S1.isBlock).1 =
      displayIsBlock (evalProp style.props "display" (some "inline"))
        (evalProp style.props "position" none)
        (evalProp style.props "float" none) isRoot := by
    rw [hS1, makeBoxStage_core]
    split
    · split
      · rw [isBlock_cached _ _ (isBlock_sets_memo _)]
        simp [hc0, isBlock_after_hasBox_mk]
      · simp [hc0, isBlock_after_hasBox_mk]
    · simp [hc0, isBlock_after_hasBox_mk]
  have h1 : (makeBox style offset isRoot chunk abs afs ipd).1.core.hasBoxValue =
      some (ipd && !(evalProp style.props "display" (some "inline") = some "none")) := by
    rw [hbox]
    dsimp only
    rw [getBreakValue_preserves_hasBox, hhbv]
  have h2 : (makeBox style offset isRoot chunk abs afs ipd).1.core.isBlockValue =
      some (displayIsBlock (evalProp style.props "display" (some "inline"))
        (evalProp style.props "position" none)
        (evalProp style.props "float" none) isRoot) := by
    rw [hbox]
    dsimp only
    rw [getBreakValue_isBlock_memo, hibv]
  exact ⟨h1, h2, hasBox_cached _ _ h1, isBlock_cached _ _ h2⟩

/-- All FlowChunk fields other than `breakBefore`, compared between the
chunk at creation and a later state. -/
def chunkFieldsPreserved (c c' : FlowChunk) : Prop :=
  c'.flowName = c.flowName ∧ c'.element = c.element ∧
  c'.startOffset = c.startOffset ∧ c'.priority = c.priority ∧
  c'.linger = c.linger ∧ c'.exclusive = c.exclusive ∧
  c'.repeated = c.repeated ∧ c'.last = c.last

/-- C4 counterexample inputs: a freshly created chunk with no inherited
break-before, and a block element carrying `break-before: page`. -/
def c4Chunk : FlowChunk := ⟨"body", 0, 0, 0, none, false, false, false, none⟩

/-- C4 counterexample inputs: the element style. -/
def c4Style : ElementStyle :=
  ⟨[("display", "block"), ("break-before", "page")], none, none⟩

/-- C4 counterexample: constructing the flow-start box for this element —
an operation of the core that runs after the FlowChunk was created and
published — rewrites the chunk's inherited break-before from `none` to
`page`.  The claim's list of never-changing fields wrongly includes the
inherited break-before. -/
theorem c4_breakBefore_counterexample :
    c4Chunk.breakBefore = none ∧
    (makeBox c4Style 1 false c4Chunk true true true).2.breakBefore = some "page" ∧
    (none : Option String) ≠ some "page" := by
  refine ⟨by decide, by decide, by decide⟩

/-- C4 amended: after a FlowChunk is created, the core operations that
touch it — element-box construction, pseudo-box construction, after-pseudo
construction at pop, and `BoxStack.pop` itself — never change its flow
name, originating node, start offset, priority, linger, exclusive,
repeated or last fields; only `breakBefore` may be rewritten (and,
separately, the owning flow's forced-break-offset list may grow). -/
theorem c4_chunk_fields_amended :
    (∀ (ps : PseudoStyle) (offset : Int) (chunk : FlowChunk) (abs afs : Bool),
      chunkFieldsPreserved chunk (makePseudoBox ps offset chunk abs afs).2) ∧
    (∀ (style : ElementStyle) (offset : Int) (isRoot : Bool) (chunk : FlowChunk)
        (abs afs ipd : Bool),
      chunkFieldsPreserved chunk (makeBox style offset isRoot chunk abs afs ipd).2) ∧
    (∀ (b : Box) (offset : Int) (chunk : FlowChunk) (abs afs : Bool),
      chunkFieldsPreserved chunk
        (b.buildAfterPseudoElementBox offset chunk abs afs).2) ∧
    (∀ (s : BoxStack) (offset : Int) (chunk : FlowChunk) (b : Box)
        (s' : BoxStack) (c' : FlowChunk),
      s.pop offset chunk = some (b, s', c') → chunkFieldsPreserved chunk c') := by
  refine ⟨?_, ?_, ?_, ?_⟩
  · intro ps offset chunk abs afs
    exact chunkEvolved_fields (makePseudoBox_chunkEvolved ps offset chunk abs afs)
  · intro style offset isRoot chunk abs afs ipd
    exact chunkEvolved_fields (makeBox_chunkEvolved style offset isRoot chunk abs afs ipd)
  · intro b offset chunk abs afs
    exact chunkEvolved_fields (buildAfter_chunkEvolved b offset chunk abs afs)
  · intro s offset chunk b s' c' h
    exact chunkEvolved_fields (pop_chunkEvolved s offset chunk b s' c' h)

/-- C4 witness inputs: a box whose pop succeeds. -/
def c4PopBox : Box :=
  ⟨mkBoxCore [("display", "block")] 1 false "body" true true true,
   none, none, none, none⟩

/-- C4 witness inputs: the triple returned by a successful pop. -/
def c4PopTriple : Box × BoxStack × FlowChunk :=
  (BoxStack.pop ⟨[c4PopBox], true, true, []⟩ 3 c4Chunk).get (by decide)

/-- C4 witness: the amended theorem applied at concrete inputs, including
a concrete successful pop. -/
theorem c4_chunk_fields_amended_witness :
    BoxStack.pop ⟨[c4PopBox], true, true, []⟩ 3 c4Chunk =
      some (c4PopTriple.1, c4PopTriple.2.1, c4PopTriple.2.2) ∧
    chunkFieldsPreserved c4Chunk c4PopTriple.2.2 ∧
    chunkFieldsPreserved c4Chunk (makeBox c4Style 1 false c4Chunk true true true).2 := by
  have hpop : BoxStack.pop ⟨[c4PopBox], true, true, []⟩ 3 c4Chunk =
      some (c4PopTriple.1, c4PopTriple.2.1, c4PopTriple.2.2) := by
    have h := (Option.some_get (show (BoxStack.pop ⟨[c4PopBox], true, true, []⟩ 3
      c4Chunk).isSome = true by decide)).symm
    exact h
  exact ⟨hpop,
    c4_chunk_fields_amended.2.2.2 ⟨[c4PopBox], true, true, []⟩ 3 c4Chunk
      c4PopTriple.1 c4PopTriple.2.1 c4PopTriple.2.2 hpop,
    c4_chunk_fields_amended.2.1 c4Style 1 false c4Chunk true true true⟩

/-! ### Append-only forced break offsets (claim C9) -/

/-- C9: a `registerForcedBreakOffset` call leaves the flow's list an
append-only extension of itself; it appends exactly its offset, and
exactly when the break value is forced-class and the offset exceeds the
current last element (or the list is empty); and the strictly-increasing
ordering of the list is preserved. -/
theorem c9_registerForcedBreakOffset (l : List Int) (bv : Option String)
    (off : Int) :
    (∃ t, registerForcedBreakOffset l bv off = l ++ t) ∧
    (registerForcedBreakOffset l bv off = l ∨
     registerForcedBreakOffset l bv off = l ++ [off]) ∧
    (registerForcedBreakOffset l bv off = l ++ [off] ↔
      (isForcedBreakValue bv = true ∧
       (l = [] ∨ ∃ x, l.getLast? = some x ∧ x < off))) ∧
    (List.Chain' (· < ·) l →
      List.Chain' (· < ·) (registerForcedBreakOffset l bv off)) := by
  have happend_ne : l ++ [off] ≠ l := by
    intro h
    have := congrArg List.length h
    simp at this
  constructor
  · unfold registerForcedBreakOffset
    split
    · split
      · exact ⟨[off], rfl⟩
      · split
        · exact ⟨[off], rfl⟩
        · exact ⟨[], by simp⟩
    · exact ⟨[], by simp⟩
  constructor
  · unfold registerForcedBreakOffset
    split
    · split
      · exact Or.inr rfl
      · split
        · exact Or.inr rfl
        · exact Or.inl rfl
    · exact Or.inl rfl
  constructor
  · unfold registerForcedBreakOffset
    split
    · rename_i hforced
      split
      · rename_i hlast
        simp only [true_and, hforced]
        constructor
        · intro _
          exact Or.inl (by simpa using hlast)
        · intro _
          trivial
      · rename_i lastOff hlast
        split
        · rename_i hlt
          simp only [hforced, true_and]
          constructor
          · intro _
            exact Or.inr ⟨lastOff, hlast, hlt⟩
          · intro _
            trivial
        · rename_i hlt
          constructor
          · intro h
            exact absurd h.symm happend_ne
          · rintro ⟨_, h2 | ⟨x, hx, hxlt⟩⟩
            · simp [h2] at hlast
            · rw [hlast] at hx
              cases hx
              omega
    · rename_i hforced
      constructor
      · intro h
        exact absurd h.symm happend_ne
      · rintro ⟨h1, _⟩
        exact absurd h1 (by simpa using hforced)
  · intro hchain
    unfold registerForcedBreakOffset
    split
    · split
      · rename_i hlast
        have : l = [] := by simpa using hlast
        simp [this]
      · rename_i lastOff hlast
        split
        · rename_i hlt
          rw [List.chain'_append]
          exact ⟨hchain, List.chain'_singleton _, by
            intro x hx y hy
            simp only [List.head?_cons, Option.mem_def, Option.some.injEq] at hy
            rw [Option.mem_def, hlast] at hx
            cases hx
            subst hy
            exact hlt⟩
        · exact hchain
    · exact hchain

/-- C9 witness: a forced value appended past the last element, and the
strictly-increasing ordering preserved, at concrete inputs. -/
theorem c9_registerForcedBreakOffset_witness :
    registerForcedBreakOffset [1] (some "page") 2 = [1] ++ [2] ∧
    List.Chain' (fun a b : Int => a < b)
      (registerForcedBreakOffset [1] (some "page") 2) :=
  ⟨((c9_registerForcedBreakOffset [1] (some "page") 2).2.2.1).mpr
      ⟨by decide, Or.inr ⟨1, by decide, by decide⟩⟩,
   (c9_registerForcedBreakOffset [1] (some "page") 2).2.2.2
      (List.chain'_singleton 1)⟩

/-! ### nearestBlockStartOffset (claim C6) -/

/-- The walk's continue condition from claim C6: the ancestor shares the
box's flow, is itself at block start, and is not a root box. -/
abbrev c6Continue (b q : Box) : Prop :=
  q.core.flowName = b.core.flowName ∧ q.core.atBlockStart = true ∧
  q.core.isRoot = false

/-- Transcription of claim C6's description of the walk: return the offset
of the first ancestor that breaks either condition (different flow or not
at block start), or the offset of a root ancestor; error when the list is
exhausted. -/
def c6ClaimWalk (flowName : String) : List Box → Option Int
  | [] => none
  | p :: rest =>
    if decide (p.core.flowName = flowName) && p.core.atBlockStart &&
        !p.core.isRoot then
      c6ClaimWalk flowName rest
    else some p.core.offset

/-- Transcription of claim C6 as a whole, to be compared with
`BoxStack.nearestBlockStartOffset` from the source. -/
def c6ClaimSpec (s : BoxStack) (box : Box) : Option Int :=
  if box.core.atBlockStart = false then some box.core.offset
  else c6ClaimWalk box.core.flowName (s.walkList box)

/-- The walk exhausts the stack exactly when every walked ancestor keeps
the continue condition. -/
theorem nbsoWalk_none_iff (l : List Box) :
    ∀ b : Box, nbsoWalk b l = none ↔ ∀ p ∈ l, c6Continue b p := by
  induction l with
  | nil => intro b; simp [nbsoWalk]
  | cons p rest ih =>
    intro b
    simp only [nbsoWalk]
    split_ifs with h1 h2 h3
    · constructor
      · intro h; simp at h
      · intro h
        exact absurd (h p (by simp)).1 h1
    · constructor
      · intro h; simp at h
      · intro h
        have hq := (h p (by simp)).2.1
        rw [h2] at hq
        cases hq
    · constructor
      · intro h; simp at h
      · intro h
        have hq := (h p (by simp)).2.2
        rw [h3] at hq
        cases hq
    · have hflow : p.core.flowName = b.core.flowName := not_not.mp h1
      have habs : p.core.atBlockStart = true := by
        revert h2; cases p.core.atBlockStart <;> simp
      have hroot : p.core.isRoot = false := by
        revert h3; cases p.core.isRoot <;> simp
      rw [ih p]
      constructor
      · intro hrest q hq
        rcases List.mem_cons.mp hq with rfl | hq'
        · exact ⟨hflow, habs, hroot⟩
        · obtain ⟨hf, ha, hr⟩ := hrest q hq'
          exact ⟨by rw [hf, hflow], ha, hr⟩
      · intro hall q hq
        obtain ⟨hf, ha, hr⟩ := hall q (by simp [hq])
        exact ⟨by rw [hf, hflow], ha, hr⟩

/-- The walk's result at the first ancestor that breaks the continue
condition: the current chain box's offset when the break is a flow change,
the breaking ancestor's own offset otherwise. -/
theorem nbsoWalk_break (l : List Box) :
    ∀ (b p : Box) (r : List Box),
      (∀ q ∈ l, c6Continue b q) → ¬ c6Continue b p →
      nbsoWalk b (l ++ p :: r) =
        some (if p.core.flowName ≠ b.core.flowName then
                (match l.getLast? with
                 | some q => q.core.offset
                 | none => b.core.offset)
              else p.core.offset) := by
  induction l with
  | nil =>
    intro b p r _ hbreak
    simp only [List.nil_append, nbsoWalk, List.getLast?_nil]
    split_ifs with h1 h2 h3
    · rfl
    · rfl
    · rfl
    · have hflow : p.core.flowName = b.core.flowName := not_not.mp h1
      have habs : p.core.atBlockStart = true := by
        revert h2; cases p.core.atBlockStart <;> simp
      have hroot : p.core.isRoot = false := by
        revert h3; cases p.core.isRoot <;> simp
      exact absurd ⟨hflow, habs, hroot⟩ hbreak
  | cons q l' ih =>
    intro b p r hcont hbreak
    obtain ⟨hf, ha, hr⟩ := hcont q (by simp)
    simp only [List.cons_append, nbsoWalk]
    rw [if_neg (not_not.mpr hf), if_neg (by rw [ha]; simp), if_neg (by rw [hr]; simp)]
    show nbsoWalk q (l' ++ p :: r) =
      some (if p.core.flowName ≠ b.core.flowName then
              (match (q :: l').getLast? with
               | some x => x.core.offset
               | none => b.core.offset)
            else p.core.offset)
    have hcont' : ∀ x ∈ l', c6Continue q x := by
      intro x hx
      obtain ⟨hf', ha', hr'⟩ := hcont x (by simp [hx])
      exact ⟨by rw [hf', hf], ha', hr'⟩
    have hbreak' : ¬ c6Continue q p := by
      intro ⟨hf', ha', hr'⟩
      exact hbreak ⟨by rw [hf', hf], ha', hr'⟩
    rw [ih q p r hcont' hbreak']
    have hiff : (p.core.flowName ≠ q.core.flowName) ↔
        (p.core.flowName ≠ b.core.flowName) := by rw [hf]
    cases l' with
    | nil =>
      by_cases hpq : p.core.flowName ≠ q.core.flowName
      · simp only [List.getLast?_nil, List.getLast?_singleton, if_pos hpq,
          if_pos (hiff.mp hpq)]
      · simp only [List.getLast?_nil, List.getLast?_singleton, if_neg hpq,
          if_neg (fun hh => hpq (hiff.mpr hh))]
    | cons y l'' =>
      have hlast : (q :: y :: l'').getLast? = (y :: l'').getLast? := by
        simp [List.getLast?_cons_cons]
      rw [hlast]
      cases hgl : (y :: l'').getLast? with
      | none =>
        rw [List.getLast?_eq_none_iff] at hgl
        cases hgl
      | some x =>
        by_cases hpq : p.core.flowName ≠ q.core.flowName
        · simp only [if_pos hpq, if_pos (hiff.mp hpq)]
        · simp only [if_neg hpq, if_neg (fun hh => hpq (hiff.mpr hh))]

/-- C6 amended: `nearestBlockStartOffset` returns the box's own offset
when the box is not at block start; otherwise it walks the ancestors
(skipping the box itself when it is the top) and (a) fails — the fatal,
uncaught internal error — exactly when every walked ancestor shares the
flow, is at block start and is not a root box, and (b) at the first
ancestor breaking a condition returns the current walk box's offset when
the break is a flow change, and that ancestor's own offset when it is not
at block start or is a root box. -/
theorem c6_nearestBlockStartOffset_amended (s : BoxStack) (box : Box) :
    (box.core.atBlockStart = false →
      s.nearestBlockStartOffset box = some box.core.offset) ∧
    (box.core.atBlockStart = true →
      (s.nearestBlockStartOffset box = none ↔
        ∀ p ∈ s.walkList box, c6Continue box p) ∧
      (∀ l p r, s.walkList box = l ++ p :: r →
        (∀ q ∈ l, c6Continue box q) → ¬ c6Continue box p →
        s.nearestBlockStartOffset box =
          some (if p.core.flowName ≠ box.core.flowName then
                  (match l.getLast? with
                   | some q => q.core.offset
                   | none => box.core.offset)
                else p.core.offset))) := by
  constructor
  · intro h
    unfold BoxStack.nearestBlockStartOffset
    rw [if_pos h]
  · intro h
    have hne : ¬ box.core.atBlockStart = false := by rw [h]; simp
    constructor
    · unfold BoxStack.nearestBlockStartOffset
      rw [if_neg hne]
      exact nbsoWalk_none_iff (s.walkList box) box
    · intro l p r hwalk hcont hbreak
      unfold BoxStack.nearestBlockStartOffset
      rw [if_neg hne, hwalk]
      exact nbsoWalk_break l box p r hcont hbreak

/-- C6 counterexample inputs: an ancestor in a different flow at offset 5. -/
def c6BoxA : Box :=
  ⟨mkBoxCore [] 5 false "note" true true true, none, none, none, none⟩

/-- C6 counterexample inputs: the queried box, in flow "body" at offset 9. -/
def c6BoxB : Box :=
  ⟨mkBoxCore [] 9 false "body" true true true, none, none, none, none⟩

/-- C6 counterexample inputs: a stack with the single different-flow
ancestor. -/
def c6Stack : BoxStack := ⟨[c6BoxA], true, true, []⟩

/-- C6 counterexample: at a flow mismatch the code returns the walked
box's own offset (9), while the claim's rule — the offset of the first
ancestor that breaks either condition — gives the ancestor's offset (5). -/
theorem c6_flow_mismatch_counterexample :
    c6Stack.nearestBlockStartOffset c6BoxB = some 9 ∧
    c6ClaimSpec c6Stack c6BoxB = some 5 ∧
    (some 9 : Option Int) ≠ some 5 := by
  refine ⟨by decide, by decide, by decide⟩

/-- C6 witness: the amended characterization applied at the concrete
flow-mismatch stack. -/
theorem c6_nearestBlockStartOffset_amended_witness :
    c6BoxB.core.atBlockStart = true ∧
    c6Stack.walkList c6BoxB = [] ++ c6BoxA :: [] ∧
    (¬ c6Continue c6BoxB c6BoxA) ∧
    c6Stack.nearestBlockStartOffset c6BoxB =
      some (if c6BoxA.core.flowName ≠ c6BoxB.core.flowName then
              (match ([] : List Box).getLast? with
               | some q => q.core.offset
               | none => c6BoxB.core.offset)
            else c6BoxA.core.offset) :=
  ⟨by decide, by decide, by decide,
   ((c6_nearestBlockStartOffset_amended c6Stack c6BoxB).2 (by decide)).2
     [] c6BoxA [] (by decide) (by simp) (by decide)⟩
